import Mathlib

/-!
# Verification of the AdvancedBan fleet-coordination engine

Shallow embedding of the plugin in `src/aban/main.py`: the scope cache
(`get_managed_groups`), the racing resolver (`_resolve_user_across_groups_by_id`),
the fallback-chain executor (`safe_ban_action`) and the batch dispatcher
(`batch_ban_operation`), together with theorems settling the specification's
claims about them.

Remote calls (Telethon requests) are modelled by explicit outcome environments:
every remote call either returns a value or raises, and the environment records
which.  Python exceptions that the source catches are modelled by the
corresponding `Option`/`Except`/`CallRes` branch; a function that catches every
exception and returns a value is embedded as a total Lean function.
The cooperative (asyncio) scheduling of the resolver and of the cache refresh is
embedded as an explicit interleaving machine: one step per suspension point,
driven by an arbitrary schedule.
-/

namespace AdvancedBan

/-! ## Configuration constants (src/aban/main.py lines 26-37) -/

/-- `CACHE_DURATION = None` : the cache never expires. -/
def CACHE_DURATION : Option Nat := none

/-- `BATCH_SIZE = 20` : chunk size of the batch dispatcher. -/
def BATCH_SIZE : Nat := 20

/-- `PARALLEL_LIMIT = 8` : semaphore size of the racing resolver. -/
def PARALLEL_LIMIT : Nat := 8

/-! ## Remote-call outcomes -/

/-- Outcome of a remote call that either succeeds or raises. -/
inductive CallRes
  | ok
  | err
deriving DecidableEq, Repr

/-- A Telethon entity as far as `safe_ban_action` inspects it:
its id, its `access_hash` (`none` models a missing attribute, `some 0` is
falsy in Python just like a missing one), and whether it is a broadcast
channel persona. -/
structure Entity where
  id : Int
  access_hash : Option Int
  broadcast : Bool
deriving DecidableEq, Repr

/-- Python truthiness of `user_entity.access_hash` combined with the
`hasattr` guard: present and nonzero. -/
def truthyHash : Option Int → Bool
  | none => false
  | some h => h != 0

/-! ## The fallback-chain executor `safe_ban_action` (lines 308-412)

The environment fixes the outcome of every remote call the function can make
for one `(chat_id, user_id)` pair.  `safe_get_entity` never raises (it catches
internally and returns `None`), hence `get_entity : Option Entity`; the two
resolution calls in the source hit the same deterministic remote state, so the
environment holds a single value for both. -/

structure BanEnv where
  /-- `EditBannedRequest(chat_id, user_id, rights)` — strategy 1. -/
  edit_direct : CallRes
  /-- `safe_get_entity(client, user_id)` — never raises. -/
  get_entity : Option Entity
  /-- `EditBannedRequest(chat_id, user_entity, rights)` — strategy 2. -/
  edit_entity : CallRes
  /-- `GetParticipantRequest(chat_id, user_id)` — strategy 3 lookup:
  `.ok (some cid)` when the participant has a `peer.channel_id`,
  `.ok none` when it has no such peer, `.error` when the call raises. -/
  get_participant : Except Unit (Option Int)
  /-- `EditBannedRequest(chat_id, channel_id, rights)` — strategy 3 submit. -/
  edit_channel : CallRes
  /-- `EditBannedRequest(chat_id, input_peer, rights)` — strategy 4. -/
  edit_input_peer : CallRes
  /-- `DeleteParticipantHistoryRequest(channel, user_id)` — purge step 1. -/
  del_direct : CallRes
  /-- `DeleteParticipantHistoryRequest(channel, user_entity)` — purge step 2. -/
  del_entity : CallRes
deriving Repr

/-- The remote calls `safe_ban_action` can issue, in the order issued. -/
inductive BanEv
  | try_direct       -- strategy 1 submit
  | resolve_entity   -- safe_get_entity call
  | try_entity       -- strategy 2 submit
  | try_participant  -- strategy 3 membership lookup
  | try_channel      -- strategy 3 submit
  | try_input_peer   -- strategy 4 submit
  | purge_direct     -- purge step 1
  | purge_entity     -- purge step 2
deriving DecidableEq, Repr

/-- The `ChatBannedRights` fields `safe_ban_action` inspects. -/
structure BanRights where
  view_messages : Bool
  send_messages : Bool
deriving DecidableEq, Repr

/-- The strategy cascade of `safe_ban_action` (lines 310-368), returning the
final `ban_success` flag and the sequence of remote calls issued.  The nesting
mirrors the source: strategy 2 lives in the handler of strategy 1's exception;
strategies 3 and 4 live in the handler of the exception raised inside the
strategy-2 `try` block, which fires only when an entity was resolved and the
resubmission raised — when `safe_get_entity` returns `None` no exception is
raised there, so strategies 3 and 4 are never reached. -/
def ban_phase (env : BanEnv) : Bool × List BanEv :=
  match env.edit_direct with
  | .ok => (true, [.try_direct])
  | .err =>
    match env.get_entity with
    | none =>
      -- `if user_entity:` fails without raising: ban_success stays False and
      -- the `except Exception as e2` handler (strategies 3 and 4) is skipped.
      (false, [.try_direct, .resolve_entity])
    | some e =>
      match env.edit_entity with
      | .ok => (true, [.try_direct, .resolve_entity, .try_entity])
      | .err =>
        -- strategy 3
        let s3 : Bool × List BanEv :=
          match env.get_participant with
          | .ok (some _cid) =>
            match env.edit_channel with
            | .ok => (true, [.try_participant, .try_channel])
            | .err => (false, [.try_participant, .try_channel])
          | .ok none => (false, [.try_participant])
          | .error _ => (false, [.try_participant])
        let evs := [.try_direct, .resolve_entity, .try_entity] ++ s3.2
        if s3.1 then (true, evs)
        else
          -- strategy 4: re-resolve (deterministic remote: yields `e` again),
          -- then submit via a raw InputPeer when the access hash is truthy.
          if truthyHash e.access_hash then
            match env.edit_input_peer with
            | .ok => (true, evs ++ [.resolve_entity, .try_input_peer])
            | .err => (false, evs ++ [.resolve_entity, .try_input_peer])
          else (false, evs ++ [.resolve_entity])

/-- The best-effort history purge (lines 370-406): only the calls issued —
every outcome is swallowed.  Step 2 runs only when step 1 raised and the
entity resolves. -/
def purge_phase (env : BanEnv) : List BanEv :=
  match env.del_direct with
  | .ok => [.purge_direct]
  | .err =>
    match env.get_entity with
    | some _ => [.purge_direct, .resolve_entity, .purge_entity]
    | none => [.purge_direct, .resolve_entity]

/-- `safe_ban_action` (lines 308-412): the strategy cascade, then — iff the
rights change revokes `view_messages` — the best-effort purge, and finally
`return ban_success`.  The source wraps everything in a catch-all returning
`False`, and every inner remote call is already guarded, so the embedding is a
total function. -/
def safe_ban_action (env : BanEnv) (rights : BanRights) : Bool × List BanEv :=
  let bp := ban_phase env
  if rights.view_messages then (bp.1, bp.2 ++ purge_phase env) else bp

/-- The four addressing-strategy submissions (the `EditBannedRequest` calls). -/
def isSubmitEv : BanEv → Bool
  | .try_direct => true
  | .try_entity => true
  | .try_channel => true
  | .try_input_peer => true
  | _ => false

/-- Whether strategy 3, run to completion, succeeds: the membership lookup
reports a `peer.channel_id` and the resubmission with it goes through. -/
def strat3_ok (env : BanEnv) : Bool :=
  match env.get_participant with
  | .ok (some _) => env.edit_channel == .ok
  | _ => false

/-- Environment refuting the claim that all four strategies are tried before
giving up: strategy 1 raises, the identity does not resolve — although the
strategy-3 calls would both succeed, they are never attempted. -/
def c3CounterEnv : BanEnv :=
  { edit_direct := .err, get_entity := none, edit_entity := .ok,
    get_participant := .ok (some 7), edit_channel := .ok, edit_input_peer := .ok,
    del_direct := .ok, del_entity := .ok }

/-- Environment in which strategies 1-3 fail and strategy 4 has no usable
access hash. -/
def c3WitnessEnv : BanEnv :=
  { edit_direct := .err, get_entity := some ⟨9, some 0, false⟩,
    edit_entity := .err, get_participant := .error (), edit_channel := .err,
    edit_input_peer := .ok, del_direct := .ok, del_entity := .ok }

/-! ## Chunked iteration

Both `get_managed_groups` (batches of 10) and `batch_ban_operation`
(batches of `BATCH_SIZE`) iterate `for i in range(0, len(xs), n)` over
`xs[i : i + n]`. -/

/-- Fuel-driven worker for `chunksOf` (structural recursion, so concrete
slicings compute definitionally).  Every round consumes at least one element,
so with `fuel = l.length` the fuel-exhaustion arm is unreachable. -/
def chunksOfGo (n : Nat) : Nat → List α → List (List α)
  | _, [] => []
  | 0, l => [l]
  | fuel + 1, x :: xs => (x :: xs.take (n - 1)) :: chunksOfGo n fuel (xs.drop (n - 1))

/-- The successive slices `l[0:n], l[n:2n], …` of `range(0, len(l), n)`
(for `n = 0` Python's slicing would loop forever; the embedding takes one
element per round then, which keeps the function total — both call sites use
`n ≥ 10`). -/
def chunksOf (n : Nat) (l : List α) : List (List α) :=
  chunksOfGo n l.length l

/-! ## Managed groups: a `Scope` and the enumeration-and-probe refresh -/

/-- A cached scope `{"id": dialog.id, "title": dialog.title}`. -/
structure Group where
  id : Int
  title : String
deriving DecidableEq, Repr

/-- A dialog as `get_managed_groups` inspects it. -/
structure Dialog where
  id : Int
  title : String
  is_group : Bool
  is_channel : Bool
deriving DecidableEq, Repr

/-- The `admin_rights` object of a participant, as far as the refresh reads it. -/
structure AdminRights where
  ban_users : Bool
deriving DecidableEq, Repr

/-- Outcome of `GetParticipantRequest(dialog.id, me.id)` for one dialog:
`.ok (some r)` — the agent participates with admin rights `r`;
`.ok none` — participant found but `admin_rights` is `None`;
`.error ()` — the probe raised. -/
abbrev ProbeRes := Except Unit (Option AdminRights)

/-- `check_group` (lines 235-243): a dialog is turned into a cached scope iff
its probe succeeds and reports `ban_users`; a raised probe and a
rights-less participation both yield `None`. -/
def check_group (probe : Int → ProbeRes) (d : Dialog) : Option Group :=
  match probe d.id with
  | .ok (some r) => if r.ban_users then some ⟨d.id, d.title⟩ else none
  | .ok none => none
  | .error _ => none

/-- The refresh body of `get_managed_groups` (lines 225-253): keep the
group/channel dialogs, probe them in concurrent batches of 10
(`asyncio.gather` returns the batch results in input order, so batching does
not affect the collected list), and collect the positive probes. -/
def collect_managed_groups (probe : Int → ProbeRes) (dialogs : List Dialog) :
    List Group :=
  let ds := dialogs.filter fun d => d.is_group || d.is_channel
  (chunksOf 10 ds).foldl (fun acc batch => acc ++ batch.filterMap (check_group probe)) []

/-! ## The batch dispatcher `batch_ban_operation` (lines 416-450) -/

/-- Behaviour of one `safe_ban_action` call inside `process_group`:
it returned `True`, returned `False`, or raised. -/
inductive GOutcome
  | success
  | failure
  | raised
deriving DecidableEq, Repr

/-- `process_group` (lines 422-430): exceptions are caught and turned into a
`(False, "<title> (异常)")` result, so `asyncio.gather` never receives an
exception from it. -/
def process_group (out : Group → GOutcome) (g : Group) : Bool × Option String :=
  match out g with
  | .success => (true, none)
  | .failure => (false, some g.title)
  | .raised => (false, some (g.title ++ " (异常)"))

/-- The tally update for one result of a chunk (lines 439-448).  The
`isinstance(result, Exception)` arm of the source is unreachable because
`process_group` catches everything; the reason string is appended only when
truthy (`if result[1]:`), so an empty string is dropped. -/
def tally (acc : Nat × Nat × List String) (r : Bool × Option String) :
    Nat × Nat × List String :=
  match r with
  | (true, _) => (acc.1 + 1, acc.2.1, acc.2.2)
  | (false, reason) =>
    (acc.1, acc.2.1 + 1,
     match reason with
     | none => acc.2.2
     | some t => if t = "" then acc.2.2 else acc.2.2 ++ [t])

/-- `batch_ban_operation` (lines 416-450): chunk the scopes by `BATCH_SIZE`,
run `process_group` on every member of a chunk concurrently (the results
arrive in input order from `asyncio.gather`), and fold the running tally.
Returns `(success, failed, failed_groups)`. -/
def batch_ban_operation (out : Group → GOutcome) (groups : List Group) :
    Nat × Nat × List String :=
  (chunksOf BATCH_SIZE groups).foldl
    (fun acc batch => batch.foldl (fun a g => tally a (process_group out g)) acc)
    (0, 0, [])

/-- The entry a scope contributes to `failed_groups`: nothing on success, the
bare title on a returned `False` (dropped by the `if result[1]:` truthiness
check when the title is empty), the title plus `" (异常)"` on an exception. -/
def reasonOf (out : Group → GOutcome) (g : Group) : Option String :=
  match out g with
  | .success => none
  | .failure => if g.title = "" then none else some g.title
  | .raised => some (g.title ++ " (异常)")

/-- 25 scopes; the one with id 20 has an empty (falsy) title. -/
def c4Groups : List Group :=
  (List.range 25).map fun i =>
    ⟨(i : Int), if i == 20 then "" else "g" ++ toString i⟩

/-- The last five scopes (ids 20-24) always fail, the rest succeed. -/
def c4Out : Group → GOutcome :=
  fun g => if g.id ≥ 20 then .failure else .success

/-- 25 scopes with distinct nonempty titles. -/
def c4wGroups : List Group :=
  (List.range 25).map fun i => ⟨(i : Int), "t" ++ toString i⟩

/-- The first five scopes (ids 0-4) always fail, the rest succeed. -/
def c4wOut : Group → GOutcome :=
  fun g => if g.id < 5 then .failure else .success

/-! ## Concurrency trace model of the batch dispatcher (for the chunking bound)

`batch_ban_operation` awaits `asyncio.gather` on each chunk before slicing the
next one, so an execution is a concatenation of per-chunk event traces; within
one chunk the `process_group` coroutines run concurrently and their launch /
completion events interleave arbitrarily, subject only to: the chunk launches
exactly its members, completes all of them before the `gather` returns, and no
coroutine completes before it was launched. -/

/-- Launch / completion of one `process_group` coroutine. -/
inductive BEv
  | launch
  | complete
deriving DecidableEq, Repr

/-- Number of launch events. -/
def countLaunch (tr : List BEv) : Nat := tr.countP (· == BEv.launch)

/-- Number of completion events. -/
def countComplete (tr : List BEv) : Nat := tr.countP (· == BEv.complete)

/-- Coroutines in flight after the events `tr`. -/
def inFlight (tr : List BEv) : Int := (countLaunch tr : Int) - (countComplete tr : Int)

/-- `tr` is a possible event trace of one `asyncio.gather` over a chunk of `m`
coroutines: `m` launches, `m` completions, and in every prefix no more
completions than launches. -/
def ChunkTrace (m : Nat) (tr : List BEv) : Prop :=
  countLaunch tr = m ∧ countComplete tr = m ∧
    ∀ p ∈ tr.inits, countComplete p ≤ countLaunch p

instance (m : Nat) (tr : List BEv) : Decidable (ChunkTrace m tr) := by
  unfold ChunkTrace; infer_instance

/-- `tr` is a possible event trace of `batch_ban_operation` over scopes chunked
into sizes `sizes`: chunk traces in sequence — all members of chunk `k` are
launched and completed before chunk `k+1` starts. -/
def BatchTrace (sizes : List Nat) (tr : List BEv) : Prop :=
  ∃ trs : List (List BEv), List.Forall₂ ChunkTrace sizes trs ∧ tr = trs.flatten

/-- The chunk sizes `batch_ban_operation` dispatches for a scope list. -/
def dispatchSizes (groups : List Group) : List Nat :=
  (chunksOf BATCH_SIZE groups).map List.length

/-- A fully sequential chunk execution: each coroutine launches and completes
before the next launches. -/
def seqChunkTrace (m : Nat) : List BEv :=
  (List.replicate m [BEv.launch, BEv.complete]).flatten

/-- 45 scopes, for the spec's chunking-bound scenario. -/
def c7Groups : List Group := (List.range 45).map fun i => ⟨(i : Int), "s"⟩

/-- A sequential execution trace of a 45-scope dispatch (chunks 20, 20, 5). -/
def c7Trace : List BEv :=
  seqChunkTrace 20 ++ (seqChunkTrace 20 ++ seqChunkTrace 5)

/-! ## The scope cache: `get_managed_groups` as an interleaving machine
(lines 205-262)

Shared state: `_CACHE["groups"]` (`data` + `timestamp`), its `asyncio.Lock`,
and — for the claims — a counter of executed enumeration sequences.  Each
concurrent caller is a task; a step is the code between two suspension points.
The enumeration outcome is a fixed parameter `enum` (the remote directory is
deterministic during the race): `.ok groups` for a completed
enumeration-and-probe sequence, `.error ()` when it raises (the caller's
catch-all then returns `[]` without writing the cache, the `async with`
releasing the lock). -/

/-- The cached `{"data": ..., "timestamp": ...}` pair. -/
structure GroupCacheSnap where
  data : List Group
  ts : Nat
deriving DecidableEq, Repr

/-- The freshness test (lines 211-214 and 219-222): data present, and not
older than `CACHE_DURATION` (which is `None`, i.e. never stale). -/
def cacheFresh (snap : GroupCacheSnap) (now : Nat) : Bool :=
  !snap.data.isEmpty &&
    (match CACHE_DURATION with
     | none => true
     | some d => now - snap.ts < d)

/-- Program counter of one `get_managed_groups` caller:
`start` — before the unlocked freshness check;
`waitLock` — blocked on `async with lock`;
`refreshing` — holding the lock, enumeration in flight;
`finished r` — returned `r`. -/
inductive GPC
  | start
  | waitLock
  | refreshing
  | finished (res : List Group)
deriving DecidableEq, Repr

/-- Whether a caller has returned. -/
def gFinished : GPC → Bool
  | .finished _ => true
  | _ => false

/-- Shared state plus all callers' program counters. -/
structure GCState where
  snap : GroupCacheSnap
  lockHeld : Bool
  enumCount : Nat
  clock : Nat
  pcs : List GPC
deriving DecidableEq, Repr

/-- One step of caller `i` (out-of-range or blocked steps are no-ops; the
clock ticks on every step).
`start`: the unlocked hit check — fresh cache is returned without the lock.
`waitLock`: acquiring the lock runs, atomically with it, the re-check under
the lock (double-checked pattern): a fresh cache is returned and the lock
released; otherwise the enumeration is started with the lock held.
`refreshing`: the enumeration completes — on `.ok g` the cache is written and
`g` returned, on `.error` the caller returns `[]` leaving the cache untouched;
the lock is released either way and the enumeration counter ticks. -/
def gStepCore (enum : Except Unit (List Group)) (s : GCState)
    (i : Nat) : GCState :=
  match s.pcs[i]? with
  | none => s
  | some pc =>
    match pc with
    | .start =>
      if cacheFresh s.snap s.clock then
        { s with pcs := s.pcs.set i (.finished s.snap.data) }
      else
        { s with pcs := s.pcs.set i .waitLock }
    | .waitLock =>
      if s.lockHeld then s
      else if cacheFresh s.snap s.clock then
        { s with pcs := s.pcs.set i (.finished s.snap.data) }
      else
        { s with lockHeld := true, pcs := s.pcs.set i .refreshing }
    | .refreshing =>
      match enum with
      | .ok g =>
        { s with snap := ⟨g, s.clock⟩, lockHeld := false,
                 enumCount := s.enumCount + 1, pcs := s.pcs.set i (.finished g) }
      | .error _ =>
        { s with lockHeld := false, enumCount := s.enumCount + 1,
                 pcs := s.pcs.set i (.finished []) }
    | .finished _ => s

/-- One scheduled step: the clock ticks, then caller `i` acts. -/
def get_managed_groups_step (enum : Except Unit (List Group)) (s : GCState)
    (i : Nat) : GCState :=
  gStepCore enum { s with clock := s.clock + 1 } i

/-- Run a schedule (a list of caller indices to step). -/
def get_managed_groups_run (enum : Except Unit (List Group)) (s : GCState)
    (sch : List Nat) : GCState :=
  sch.foldl (get_managed_groups_step enum) s

/-- `n` callers racing on the cache snapshot `snap`. -/
def gInit (snap : GroupCacheSnap) (n : Nat) : GCState :=
  ⟨snap, false, 0, 0, List.replicate n .start⟩

/-- The refresh command's invalidation (lines 473-474): clear data and
timestamp without fetching. -/
def invalidateCache (_c : GroupCacheSnap) : GroupCacheSnap := ⟨[], 0⟩

/-- What a single caller gets back from an enumeration outcome. -/
def enumData : Except Unit (List Group) → List Group
  | .ok g => g
  | .error _ => []

/-- Number of callers currently inside the refresh critical section. -/
def refreshingCount (s : GCState) : Nat := s.pcs.countP (· == GPC.refreshing)

/-- Lock discipline: the refresh section is occupied exactly when the lock is
held. -/
def LockInv (s : GCState) : Prop :=
  refreshingCount s = if s.lockHeld then 1 else 0

/-- Reachable configurations of a single caller on a cold cache: it walks
`start → waitLock → refreshing → finished (enumData enum)`, performing exactly
one enumeration. -/
def SingleInv (enum : Except Unit (List Group)) (s : GCState) : Prop :=
  (s.pcs = [GPC.start] ∧ s.enumCount = 0 ∧ s.snap.data = [] ∧ s.lockHeld = false)
  ∨ (s.pcs = [GPC.waitLock] ∧ s.enumCount = 0 ∧ s.snap.data = [] ∧
      s.lockHeld = false)
  ∨ (s.pcs = [GPC.refreshing] ∧ s.enumCount = 0 ∧ s.snap.data = [] ∧
      s.lockHeld = true)
  ∨ (s.pcs = [GPC.finished (enumData enum)] ∧ s.enumCount = 1)

/-- Invariant of `n` callers racing on a cold cache when the enumeration
deterministically returns the nonempty `G`: either nobody has enumerated yet
(cache still empty, nobody returned), or exactly one enumeration has run, the
cache holds `G` and the lock is free again; any returned value is `G`. -/
def CollapseInv (G : List Group) (s : GCState) : Prop :=
  LockInv s
  ∧ ((s.enumCount = 0 ∧ s.snap.data = [] ∧ ∀ pc ∈ s.pcs, gFinished pc = false)
     ∨ (s.enumCount = 1 ∧ s.snap.data = G ∧ s.lockHeld = false))
  ∧ (∀ r, GPC.finished r ∈ s.pcs → r = G)

/-- Seven administered scopes, for the spec's collapse scenario. -/
def c2Groups : List Group :=
  (List.range 7).map fun i => ⟨(i : Int), "q" ++ toString i⟩

/-! ## The racing resolver `_resolve_user_across_groups_by_id` as an
interleaving machine (lines 493-603)

Per scope there is one probe coroutine.  Its remote behaviour is fixed by a
`ProbeEnv`: the `users` list of the `GetParticipantRequest` response (empty
when the request raises or reports no users), and the participants that
`iter_participants` would yield in order (cut off at the scan limit or at a
raised iteration).  A probe holds a semaphore slot from the cheap request
until it exits.  The shared `done_event` / `found_user` pair and the entity
cache are in the machine state; the polling waiter of lines 579-593 is the
`main` step.  The trace records every remote call issued and every
completion-signal set, which is what the no-calls-after-match conjunct is
about. -/

/-- A user/channel identity, as far as the resolver compares it: its id (the
resolver matches `getattr(x, "id", None) == uid`). -/
structure Ident where
  id : Int
deriving DecidableEq, Repr

/-- Remote behaviour of one scope's probe. -/
structure ProbeEnv where
  /-- `users` of the `GetParticipantRequest(group_id, uid)` response;
  `[]` when the request raises or carries no users. -/
  cheap : List Ident
  /-- participants yielded by `iter_participants(group_id, limit=…)`, in
  order, up to the scan limit / stream end / raised iteration. -/
  members : List Ident
deriving DecidableEq, Repr

/-- The identity a completed, uncancelled probe of this scope reports:
the first id-match of the cheap response, else the first id-match of the
member scan.  `none` means the scope does not contain the target. -/
def probeAnswer (uid : Int) (e : ProbeEnv) : Option Ident :=
  (e.cheap.find? (fun u => u.id == uid)).orElse
    (fun _ => e.members.find? (fun u => u.id == uid))

/-- Trace events of the resolver: a remote call issued on behalf of scope `i`
(cheap probe or one member-scan fetch), or scope `i` setting the completion
signal. -/
inductive REv
  | call (i : Nat)
  | matched (i : Nat)
deriving DecidableEq, Repr

/-- Probe program counter:
`waiting` — queued on the semaphore;
`inCheap` — slot held, `GetParticipantRequest` in flight;
`inScan k` — slot held, fetch of member `k` in flight;
`finished` — exited (slot released). -/
inductive PPC
  | waiting
  | inCheap
  | inScan (k : Nat)
  | finished
deriving DecidableEq, Repr

/-- Does this pc hold a semaphore slot? -/
def holdsSlot : PPC → Bool
  | .inCheap => true
  | .inScan _ => true
  | _ => false

/-- Machine state of one `_resolve_user_across_groups_by_id` call.
`sem` is the free-slot count of `asyncio.Semaphore(PARALLEL_LIMIT)`;
`found`/`signal` are `found_user["val"]` and `done_event`;
`result = some r` once the resolver has returned `r`. -/
structure RState where
  pcs : List PPC
  sem : Nat
  found : Option Ident
  signal : Bool
  cache : List (Int × Ident)
  trace : List REv
  result : Option (Option Ident)
deriving DecidableEq, Repr

/-- Slots currently held. -/
def rHolding (s : RState) : Nat := s.pcs.countP holdsSlot

/-- One step of probe `i` (`envs` are the per-scope remote behaviours).
`waiting`: acquire a slot if free; the code then checks `done_event` —
set means exit immediately (releasing the slot in the same segment),
otherwise the cheap request is issued (suspension).
`inCheap`: the response arrives; an id match sets `found_user` and
`done_event` and exits; otherwise the code re-checks `done_event` and, if the
member iterator is nonempty, issues the fetch of member `0`.
`inScan k`: member `k` arrives; an id match sets the signal and exits;
otherwise the loop body issues the next fetch without consulting
`done_event` — the source's scan loop contains no signal check — or exits
when the iterator is exhausted. -/
def resolver_probe_step (uid : Int) (envs : List ProbeEnv) (s : RState)
    (i : Nat) : RState :=
  match envs[i]?, s.pcs[i]? with
  | some e, some pc =>
    match pc with
    | .waiting =>
      if s.sem = 0 then s
      else if s.signal then { s with pcs := s.pcs.set i .finished }
      else { s with sem := s.sem - 1, pcs := s.pcs.set i .inCheap,
                    trace := s.trace ++ [.call i] }
    | .inCheap =>
      match e.cheap.find? (fun u => u.id == uid) with
      | some u =>
        { s with found := some u, signal := true, pcs := s.pcs.set i .finished,
                 sem := s.sem + 1, trace := s.trace ++ [.matched i] }
      | none =>
        if s.signal then { s with pcs := s.pcs.set i .finished, sem := s.sem + 1 }
        else
          match e.members with
          | [] => { s with pcs := s.pcs.set i .finished, sem := s.sem + 1 }
          | _ :: _ => { s with pcs := s.pcs.set i (.inScan 0),
                               trace := s.trace ++ [.call i] }
    | .inScan k =>
      match e.members[k]? with
      | none => { s with pcs := s.pcs.set i .finished, sem := s.sem + 1 }
      | some u =>
        if u.id == uid then
          { s with found := some u, signal := true, pcs := s.pcs.set i .finished,
                   sem := s.sem + 1, trace := s.trace ++ [.matched i] }
        else if k + 1 < e.members.length then
          { s with pcs := s.pcs.set i (.inScan (k + 1)),
                   trace := s.trace ++ [.call i] }
        else { s with pcs := s.pcs.set i .finished, sem := s.sem + 1 }
    | .finished => s
  | _, _ => s

/-- One step of the waiter loop (lines 579-602): while the signal is unset
and probes still run, sleep (no-op).  Once the signal is set — or every probe
has finished — cancel the stragglers (they unwind at their next suspension
point, releasing their slots, without further remote calls), write the entity
cache iff a user was found (dict assignment: the new entry shadows any older
one), and return `found_user["val"]`. -/
def resolver_main_step (uid : Int) (s : RState) : RState :=
  if s.result.isSome then s
  else if s.signal || s.pcs.all (· == PPC.finished) then
    { s with pcs := s.pcs.map (fun _ => .finished),
             sem := PARALLEL_LIMIT,
             result := some s.found,
             cache :=
               match s.found with
               | some u => (uid, u) :: s.cache
               | none => s.cache }
  else s

/-- A schedule entry: `some i` steps probe `i`, `none` steps the waiter. -/
abbrev RSched := List (Option Nat)

/-- One scheduled step. -/
def resolver_step (uid : Int) (envs : List ProbeEnv) (s : RState)
    (c : Option Nat) : RState :=
  match c with
  | some i => resolver_probe_step uid envs s i
  | none => resolver_main_step uid s

/-- Run a schedule. -/
def resolver_run_from (uid : Int) (envs : List ProbeEnv) (s : RState)
    (sch : RSched) : RState :=
  sch.foldl (resolver_step uid envs) s

/-- Initial state: one waiting probe per scope, all slots free, signal unset. -/
def rInit (envs : List ProbeEnv) (cache0 : List (Int × Ident)) : RState :=
  { pcs := envs.map (fun _ => .waiting), sem := PARALLEL_LIMIT, found := none,
    signal := false, cache := cache0, trace := [], result := none }

/-- The entity-cache lookup of lines 505-513 (key `str(uid)`, modelled by the
id itself; `CACHE_DURATION is None` makes every entry fresh). -/
def lookupEnt (cache : List (Int × Ident)) (uid : Int) : Option Ident :=
  (cache.find? (fun p => p.1 == uid)).map (·.2)

/-- `_resolve_user_across_groups_by_id` under a schedule: a fresh cache hit
returns at once — no probe is created, no remote call made; on a miss the
race machine runs. -/
def resolver_run (uid : Int) (envs : List ProbeEnv)
    (cache0 : List (Int × Ident)) (sch : RSched) : RState :=
  match lookupEnt cache0 uid with
  | some u => { rInit envs cache0 with result := some (some u) }
  | none => resolver_run_from uid envs (rInit envs cache0) sch

/-- `true` iff the trace contains a remote call issued after the completion
signal was set — what the spec's cancellation sentence rules out. -/
def callAfterMatch : List REv → Bool
  | [] => false
  | .matched _ :: rest => rest.any (fun e => match e with | .call _ => true | _ => false)
  | .call _ :: rest => callAfterMatch rest

/-- Per-probe invariant, relative to the completion signal: a probe finishes
only after the signal is up or because its scope does not contain the target;
a probe scanning at position `k` has had no cheap match and no member match
before `k`, and `k` is in range. -/
def TaskInv (uid : Int) (e : ProbeEnv) (sig : Bool) : PPC → Prop
  | .finished => sig = true ∨ probeAnswer uid e = none
  | .inScan k =>
      e.cheap.find? (fun u => u.id == uid) = none ∧ k < e.members.length ∧
        ∀ j, j < k → ∀ u, e.members[j]? = some u → (u.id == uid) = false
  | _ => True

/-- Global invariant of the resolver machine. -/
structure RInv (uid : Int) (envs : List ProbeEnv)
    (cache0 : List (Int × Ident)) (s : RState) : Prop where
  len : s.pcs.length = envs.length
  semBal : s.sem + rHolding s = PARALLEL_LIMIT
  sig : s.signal = s.found.isSome
  found_src : ∀ u, s.found = some u → ∃ e ∈ envs, probeAnswer uid e = some u
  tinv : ∀ i (hi : i < envs.length) pc, s.pcs[i]? = some pc →
           TaskInv uid envs[i] s.signal pc
  resv : s.result = none → s.cache = cache0
  halt : ∀ r, s.result = some r →
           r = s.found ∧ (∀ pc ∈ s.pcs, pc = PPC.finished) ∧
           s.cache = (match s.found with
                      | some u => (uid, u) :: cache0
                      | none => cache0)

/-- Two scopes: scope 0 contains the target (cheap hit), scope 1 does not and
scans three members. -/
def c1CounterEnvs : List ProbeEnv := [⟨[⟨5⟩], []⟩, ⟨[], [⟨1⟩, ⟨2⟩, ⟨3⟩]⟩]

/-- Schedule: probe 1 acquires and starts scanning, probe 0 matches (signal
up), then probe 1 — not yet cancelled and with no signal check inside the
scan loop — issues one more member fetch before the waiter cancels it. -/
def c1CounterSched : RSched := [some 1, some 1, some 0, some 0, some 1, none]

/-- One containing scope (cheap hit), one empty scope. -/
def c1WitnessEnvs : List ProbeEnv := [⟨[⟨5⟩], []⟩, ⟨[], []⟩]

/-- A single scope that scans one non-matching member. -/
def c10Envs : List ProbeEnv := [⟨[], [⟨1⟩]⟩]

/-! # Theorems -/

/-! ## Chunked-iteration lemmas -/

theorem chunksOfGo_flatten (n : Nat) :
    ∀ (fuel : Nat) (l : List α), l.length ≤ fuel →
      (chunksOfGo n fuel l).flatten = l := by
  intro fuel
  induction fuel with
  | zero =>
    intro l h
    match l with
    | [] => rfl
    | x :: xs => simp at h
  | succ fuel ih =>
    intro l h
    match l with
    | [] => rfl
    | x :: xs =>
      simp only [chunksOfGo, List.flatten_cons]
      rw [ih _ (by simp at h ⊢; omega)]
      simp [List.take_append_drop]

theorem chunksOf_flatten (n : Nat) (l : List α) : (chunksOf n l).flatten = l :=
  chunksOfGo_flatten n l.length l le_rfl

theorem chunksOfGo_mem_length {n : Nat} (hn : 1 ≤ n) :
    ∀ (fuel : Nat) (l : List α), l.length ≤ fuel →
      ∀ c ∈ chunksOfGo n fuel l, c.length ≤ n := by
  intro fuel
  induction fuel with
  | zero =>
    intro l h c hc
    match l with
    | [] => simp [chunksOfGo] at hc
    | x :: xs => simp at h
  | succ fuel ih =>
    intro l h c hc
    match l with
    | [] => simp [chunksOfGo] at hc
    | x :: xs =>
      simp only [chunksOfGo] at hc
      rcases List.mem_cons.1 hc with hh | hh
      · subst hh; simp; omega
      · exact ih _ (by simp at h ⊢; omega) c hh

theorem length_le_of_mem_chunksOf {n : Nat} (hn : 1 ≤ n) {l c : List α}
    (hc : c ∈ chunksOf n l) : c.length ≤ n :=
  chunksOfGo_mem_length hn l.length l le_rfl c hc

theorem foldl_chunksOf (n : Nat) (f : β → α → β) (b : β) (l : List α) :
    (chunksOf n l).foldl (fun acc batch => batch.foldl f acc) b = l.foldl f b := by
  conv_rhs => rw [← chunksOf_flatten n l]
  rw [List.foldl_flatten]

theorem countP_total (p : α → Bool) (l : List α) :
    l.countP p + l.countP (fun a => !(p a)) = l.length := by
  induction l with
  | nil => rfl
  | cons a l ih =>
    rw [List.countP_cons, List.countP_cons]
    cases h : p a <;> simp [h] <;> omega

theorem chunksOfGo_map_length (n : Nat) :
    ∀ (fuel : Nat) (l : List α) (l' : List β), l.length = l'.length →
      (chunksOfGo n fuel l).map List.length
        = (chunksOfGo n fuel l').map List.length := by
  intro fuel
  induction fuel with
  | zero =>
    intro l l' h
    match l, l' with
    | [], [] => rfl
    | [], _ :: _ => simp at h
    | _ :: _, [] => simp at h
    | x :: xs, y :: ys =>
      simp only [chunksOfGo, List.map_cons, List.map_nil]
      simp at h
      simp [h]
  | succ fuel ih =>
    intro l l' h
    match l, l' with
    | [], [] => rfl
    | [], _ :: _ => simp at h
    | _ :: _, [] => simp at h
    | x :: xs, y :: ys =>
      simp only [chunksOfGo, List.map_cons]
      have hxy : xs.length = ys.length := by simp at h; omega
      rw [ih (xs.drop (n - 1)) (ys.drop (n - 1)) (by simp [hxy])]
      congr 2
      simp [hxy]

theorem chunksOf_map_length_of_length_eq (n : Nat) (l : List α) (l' : List β)
    (h : l.length = l'.length) :
    (chunksOf n l).map List.length = (chunksOf n l').map List.length := by
  unfold chunksOf
  rw [h]
  exact chunksOfGo_map_length n l'.length l l' h

/-! ## Dispatcher-trace lemmas -/

theorem inFlight_append (a b : List BEv) :
    inFlight (a ++ b) = inFlight a + inFlight b := by
  simp only [inFlight, countLaunch, countComplete, List.countP_append]
  push_cast
  ring

theorem chunkTrace_inFlight_le {m : Nat} {tr p t : List BEv}
    (h : ChunkTrace m tr) (hp : p ++ t = tr) : inFlight p ≤ (m : Int) := by
  have hL : countLaunch p ≤ m := by
    rw [← h.1, ← hp]
    simp only [countLaunch, List.countP_append]
    omega
  have hC : 0 ≤ (countComplete p : Int) := Int.natCast_nonneg _
  simp only [inFlight]
  omega

theorem chunkTrace_inFlight_eq {m : Nat} {tr : List BEv} (h : ChunkTrace m tr) :
    inFlight tr = 0 := by
  simp only [inFlight, h.1, h.2.1]
  omega

theorem forall2_inFlight_le (B : Nat) :
    ∀ (sizes : List Nat) (trs : List (List BEv)),
      List.Forall₂ ChunkTrace sizes trs → (∀ s ∈ sizes, s ≤ B) →
      ∀ p t : List BEv, p ++ t = trs.flatten → inFlight p ≤ (B : Int) := by
  intro sizes trs h
  induction h with
  | nil =>
    intro _ p t hp
    rw [List.flatten_nil] at hp
    rw [(List.append_eq_nil.1 hp).1]
    simp [inFlight, countLaunch, countComplete]
  | @cons m tr sizes trs h1 h2 ih =>
    intro hB p t hp
    rw [List.flatten_cons] at hp
    rcases List.append_eq_append_iff.1 hp with ⟨a', ha1, ha2⟩ | ⟨c', hc1, hc2⟩
    · exact le_trans (chunkTrace_inFlight_le h1 ha1.symm)
        (by exact_mod_cast hB m (List.mem_cons_self m sizes))
    · rw [hc1, inFlight_append, chunkTrace_inFlight_eq h1, zero_add]
      exact ih (fun s hs => hB s (List.mem_cons_of_mem m hs)) c' t hc2.symm

/-- C7: `batch_ban_operation` partitions the scope list into chunks of
`BATCH_SIZE = 20` (the chunks concatenate back to the input and none exceeds
20); a 45-scope dispatch is chunked `20, 20, 5`; and along every execution
trace — a sequence of per-chunk `gather` traces, chunk `k` starting only
after chunk `k-1` has fully completed — every prefix has at most 20
`apply_action` coroutines in flight. -/
theorem batch_chunking_bound_spec (groups : List Group) :
    ((chunksOf BATCH_SIZE groups).flatten = groups)
  ∧ (∀ c ∈ chunksOf BATCH_SIZE groups, c.length ≤ BATCH_SIZE)
  ∧ (groups.length = 45 → dispatchSizes groups = [20, 20, 5])
  ∧ (∀ tr, BatchTrace (dispatchSizes groups) tr →
       ∀ p t : List BEv, p ++ t = tr → inFlight p ≤ (BATCH_SIZE : Int)) := by
  refine ⟨chunksOf_flatten _ _,
    fun c hc => length_le_of_mem_chunksOf (by decide) hc, ?_, ?_⟩
  · intro h45
    have h : dispatchSizes groups
        = (chunksOf BATCH_SIZE (List.replicate 45 (0 : Nat))).map List.length :=
      chunksOf_map_length_of_length_eq _ _ _ (by simp [h45])
    rw [h]
    decide
  · rintro tr ⟨trs, hf, rfl⟩ p t hp
    refine forall2_inFlight_le BATCH_SIZE (dispatchSizes groups) trs hf ?_ p t hp
    intro s hs
    rcases List.mem_map.1 hs with ⟨c, hc, rfl⟩
    exact length_le_of_mem_chunksOf (by decide) hc

/-- Witness for C7: the prefix of a concrete sequential 45-scope dispatch
trace obeys the in-flight bound. -/
theorem batch_chunking_bound_spec_witness :
    inFlight (seqChunkTrace 20) ≤ (BATCH_SIZE : Int) :=
  (batch_chunking_bound_spec c7Groups).2.2.2 c7Trace
    ⟨[seqChunkTrace 20, seqChunkTrace 20, seqChunkTrace 5],
      List.Forall₂.cons (by decide)
        (List.Forall₂.cons (by decide)
          (List.Forall₂.cons (by decide) List.Forall₂.nil)),
      rfl⟩
    (seqChunkTrace 20) (seqChunkTrace 20 ++ seqChunkTrace 5) rfl

/-! ## Lemmas about the fallback-chain executor -/

theorem ban_phase_del_irrel (env : BanEnv) (d1 d2 : CallRes) :
    ban_phase { env with del_direct := d1, del_entity := d2 } = ban_phase env := by
  obtain ⟨d, ge, ee, gp, ec, ip, dd, de⟩ := env
  rfl

theorem safe_ban_action_result (env : BanEnv) (rights : BanRights) :
    (safe_ban_action env rights).1 = (ban_phase env).1 := by
  simp only [safe_ban_action]
  split <;> rfl

theorem fallback_order (env : BanEnv) :
    List.Sublist ((ban_phase env).2.filter isSubmitEv)
      [.try_direct, .try_entity, .try_channel, .try_input_peer] := by
  obtain ⟨d, ge, ee, gp, ec, ip, dd, de⟩ := env
  cases d
  · simp [ban_phase] <;> decide
  · cases ge with
    | none => simp [ban_phase] <;> decide
    | some e =>
      cases ee
      · simp [ban_phase] <;> decide
      · rcases gp with u | o
        · cases hth : truthyHash e.access_hash <;> cases ip <;>
            simp [ban_phase, hth] <;> decide
        · rcases o with _ | cid
          · cases hth : truthyHash e.access_hash <;> cases ip <;>
              simp [ban_phase, hth] <;> decide
          · cases ec
            · simp [ban_phase] <;> decide
            · cases hth : truthyHash e.access_hash <;> cases ip <;>
                simp [ban_phase, hth] <;> decide

theorem fallback_no_entity (env : BanEnv)
    (h1 : env.edit_direct = .err) (h2 : env.get_entity = none) :
    ban_phase env = (false, [.try_direct, .resolve_entity]) := by
  obtain ⟨d, ge, ee, gp, ec, ip, dd, de⟩ := env
  cases h1; cases h2
  rfl

theorem fallback_success_source (env : BanEnv) (h : (ban_phase env).1 = true) :
    env.edit_direct = .ok ∨ env.edit_entity = .ok ∨ env.edit_channel = .ok ∨
      env.edit_input_peer = .ok := by
  obtain ⟨d, ge, ee, gp, ec, ip, dd, de⟩ := env
  cases d
  · exact Or.inl rfl
  · cases ge with
    | none => simp [ban_phase] at h
    | some e =>
      cases ee
      · exact Or.inr (Or.inl rfl)
      · rcases gp with u | o
        · cases hth : truthyHash e.access_hash <;> cases ip <;>
            simp [ban_phase, hth] at h <;> simp
        · rcases o with _ | cid
          · cases hth : truthyHash e.access_hash <;> cases ip <;>
              simp [ban_phase, hth] at h <;> simp
          · cases ec
            · simp
            · cases hth : truthyHash e.access_hash <;> cases ip <;>
                simp [ban_phase, hth] at h <;> simp

theorem fallback_exhaustion (env : BanEnv) (e : Entity)
    (h1 : env.edit_direct = .err) (h2 : env.get_entity = some e)
    (h3 : env.edit_entity = .err) (h4 : strat3_ok env = false)
    (h5 : truthyHash e.access_hash = false) :
    (ban_phase env).1 = false ∧ BanEv.try_input_peer ∉ (ban_phase env).2 := by
  obtain ⟨d, ge, ee, gp, ec, ip, dd, de⟩ := env
  cases h1; cases h2; cases h3
  rcases gp with u | o
  · simp [ban_phase, h5]
  · rcases o with _ | cid
    · simp [ban_phase, h5]
    · cases ec
      · simp [strat3_ok] at h4
      · simp [ban_phase, h5]

/-- C3 (amended): `safe_ban_action` is a total function (the catch-all of the
source means it never raises); the rights-change submissions it attempts are a
subsequence of the fixed order direct-id, entity, channel-persona, input-peer;
a `true` result requires one of the four submissions to have succeeded;
if strategy 1 fails and the identity does not resolve, it returns `false` at
once — strategies 3 and 4 are NOT attempted (this is where the claim as
stated fails); and in the spec's scenario — strategies 1-3 fail and strategy 4
lacks a usable access hash — it returns `false` with strategy 4 unattempted. -/
theorem fallback_chain_spec (env : BanEnv) (rights : BanRights) :
    ((safe_ban_action env rights).1 = (ban_phase env).1)
  ∧ List.Sublist ((ban_phase env).2.filter isSubmitEv)
      [.try_direct, .try_entity, .try_channel, .try_input_peer]
  ∧ ((ban_phase env).1 = true →
       env.edit_direct = .ok ∨ env.edit_entity = .ok ∨ env.edit_channel = .ok ∨
         env.edit_input_peer = .ok)
  ∧ (env.edit_direct = .err → env.get_entity = none →
       ban_phase env = (false, [.try_direct, .resolve_entity]))
  ∧ (∀ e, env.edit_direct = .err → env.get_entity = some e →
       env.edit_entity = .err → strat3_ok env = false →
       truthyHash e.access_hash = false →
       (safe_ban_action env rights).1 = false ∧
         BanEv.try_input_peer ∉ (ban_phase env).2) :=
  ⟨safe_ban_action_result env rights, fallback_order env,
   fallback_success_source env, fallback_no_entity env,
   fun e h1 h2 h3 h4 h5 =>
     ⟨(safe_ban_action_result env rights).trans
        (fallback_exhaustion env e h1 h2 h3 h4 h5).1,
      (fallback_exhaustion env e h1 h2 h3 h4 h5).2⟩⟩

/-- C3 (counterexample to the claim as stated): with strategy 1 raising and
the identity unresolvable, `safe_ban_action` returns `false` even though the
strategy-3 calls — never attempted — would both have succeeded, so `false`
is returned without exhausting all four strategies. -/
theorem fallback_chain_skips_strategy3 :
    (safe_ban_action c3CounterEnv ⟨true, true⟩).1 = false
  ∧ BanEv.try_participant ∉ (safe_ban_action c3CounterEnv ⟨true, true⟩).2
  ∧ BanEv.try_channel ∉ (safe_ban_action c3CounterEnv ⟨true, true⟩).2
  ∧ BanEv.try_input_peer ∉ (safe_ban_action c3CounterEnv ⟨true, true⟩).2
  ∧ c3CounterEnv.get_participant = Except.ok (some 7)
  ∧ c3CounterEnv.edit_channel = CallRes.ok :=
  ⟨rfl, by decide, by decide, by decide, rfl, rfl⟩

/-- Witness for C3: the spec scenario at a concrete environment. -/
theorem fallback_chain_spec_witness :
    (safe_ban_action c3WitnessEnv ⟨false, true⟩).1 = false ∧
      BanEv.try_input_peer ∉ (ban_phase c3WitnessEnv).2 :=
  (fallback_chain_spec c3WitnessEnv ⟨false, true⟩).2.2.2.2
    ⟨9, some 0, false⟩ rfl rfl rfl rfl rfl

/-- C6: when the rights change revokes `view_messages` the executor appends
the two-step best-effort purge (direct id first; the entity step only when
the direct purge raised and the identity resolves), and the returned boolean
is always exactly the strategy cascade's result — unchanged under every purge
outcome, i.e. the same as if the purge step were absent; without
`view_messages` no purge call happens at all. -/
theorem purge_best_effort_spec (env : BanEnv) (rights : BanRights) :
    ((safe_ban_action env rights).1 = (ban_phase env).1)
  ∧ (∀ d1 d2,
       (safe_ban_action { env with del_direct := d1, del_entity := d2 } rights).1
         = (safe_ban_action env rights).1)
  ∧ (rights.view_messages = true →
       (safe_ban_action env rights).2 = (ban_phase env).2 ++ purge_phase env)
  ∧ (rights.view_messages = false →
       safe_ban_action env rights = ban_phase env)
  ∧ (env.del_direct = .ok → purge_phase env = [.purge_direct])
  ∧ (∀ e, env.del_direct = .err → env.get_entity = some e →
       purge_phase env = [.purge_direct, .resolve_entity, .purge_entity])
  ∧ (env.del_direct = .err → env.get_entity = none →
       purge_phase env = [.purge_direct, .resolve_entity]) := by
  refine ⟨safe_ban_action_result env rights, ?_, ?_, ?_, ?_, ?_, ?_⟩
  · intro d1 d2
    rw [safe_ban_action_result, safe_ban_action_result, ban_phase_del_irrel]
  · intro h; simp [safe_ban_action, h]
  · intro h; simp [safe_ban_action, h]
  · intro h
    obtain ⟨d, ge, ee, gp, ec, ip, dd, de⟩ := env
    cases h; rfl
  · intro e h1 h2
    obtain ⟨d, ge, ee, gp, ec, ip, dd, de⟩ := env
    cases h1; cases h2; rfl
  · intro h1 h2
    obtain ⟨d, ge, ee, gp, ec, ip, dd, de⟩ := env
    cases h1; cases h2; rfl

/-- Witness for C6: full-exclusion rights at a concrete environment whose
direct purge raises; the trace carries the two purge calls and the result is
the cascade's. -/
theorem purge_best_effort_spec_witness :
    (safe_ban_action c3WitnessEnv ⟨true, true⟩).2 =
      (ban_phase c3WitnessEnv).2 ++ purge_phase c3WitnessEnv :=
  (purge_best_effort_spec c3WitnessEnv ⟨true, true⟩).2.2.1 rfl

/-! ## Lemmas about the batch dispatcher -/

theorem foldl_tally (out : Group → GOutcome) (gs : List Group) (s f : Nat)
    (fg : List String) :
    gs.foldl (fun a g => tally a (process_group out g)) (s, f, fg)
      = (s + gs.countP (fun g => out g == .success),
         f + gs.countP (fun g => !(out g == .success)),
         fg ++ gs.filterMap (reasonOf out)) := by
  induction gs generalizing s f fg with
  | nil => simp
  | cons g gs ih =>
    rw [List.foldl_cons, List.countP_cons, List.countP_cons, List.filterMap_cons]
    cases h : out g with
    | success =>
      have hp : process_group out g = (true, none) := by simp [process_group, h]
      rw [hp]
      show gs.foldl _ (s + 1, f, fg) = _
      rw [ih]
      simp only [reasonOf, h, Prod.mk.injEq]
      refine ⟨by simp; omega, by simp, by simp⟩
    | failure =>
      have hp : process_group out g = (false, some g.title) := by
        simp [process_group, h]
      rw [hp]
      by_cases ht : g.title = ""
      · show gs.foldl _ (s, f + 1, if g.title = "" then fg else fg ++ [g.title]) = _
        rw [if_pos ht, ih]
        simp only [reasonOf, h, ht, Prod.mk.injEq]
        refine ⟨by simp, by simp; omega, by simp⟩
      · show gs.foldl _ (s, f + 1, if g.title = "" then fg else fg ++ [g.title]) = _
        rw [if_neg ht, ih]
        simp only [reasonOf, h, ht, Prod.mk.injEq]
        refine ⟨by simp, by simp; omega, by simp⟩
    | raised =>
      have hne : g.title ++ " (异常)" ≠ "" := by
        intro hc
        have := congrArg String.length hc
        simp [String.length_append] at this
        exact absurd this.2 (by decide)
      have hp : process_group out g = (false, some (g.title ++ " (异常)")) := by
        simp [process_group, h]
      rw [hp]
      show gs.foldl _
          (s, f + 1,
            if g.title ++ " (异常)" = "" then fg else fg ++ [g.title ++ " (异常)"]) = _
      rw [if_neg hne, ih]
      simp only [reasonOf, h, Prod.mk.injEq]
      refine ⟨by simp, by simp; omega, by simp⟩

theorem reasons_eq_failed_titles (out : Group → GOutcome) (groups : List Group)
    (hnr : ∀ g ∈ groups, out g ≠ .raised)
    (hne : ∀ g ∈ groups, out g = .failure → g.title ≠ "") :
    groups.filterMap (reasonOf out)
      = (groups.filter (fun g => !(out g == .success))).map (·.title) := by
  induction groups with
  | nil => rfl
  | cons g gs ih =>
    rw [List.filterMap_cons, List.filter_cons]
    have ih' := ih (fun x hx => hnr x (List.mem_cons_of_mem g hx))
      (fun x hx => hne x (List.mem_cons_of_mem g hx))
    cases h : out g with
    | success =>
      have hr : reasonOf out g = none := by simp [reasonOf, h]
      rw [hr, ih']
      simp
    | failure =>
      have ht := hne g (List.mem_cons_self g gs) h
      have hr : reasonOf out g = some g.title := by simp [reasonOf, h, ht]
      rw [hr, ih']
      simp
    | raised =>
      exact absurd h (hnr g (List.mem_cons_self g gs))

theorem batch_ban_operation_eq (out : Group → GOutcome) (groups : List Group) :
    batch_ban_operation out groups
      = (groups.countP (fun g => out g == .success),
         groups.countP (fun g => !(out g == .success)),
         groups.filterMap (reasonOf out)) := by
  unfold batch_ban_operation
  rw [foldl_chunksOf, foldl_tally]
  simp

/-- C9: every scope contributes to exactly one of the two counters — for
every scope list and every pattern of per-scope outcomes (success, failure,
raised exception), `success + failed` equals the number of scopes. -/
theorem batch_total_tally_spec (out : Group → GOutcome) (groups : List Group) :
    (batch_ban_operation out groups).1 + (batch_ban_operation out groups).2.1
      = groups.length := by
  rw [batch_ban_operation_eq]
  exact countP_total _ groups

/-- C4 (amended): per-scope exceptions never abort the batch — they are
tallied as failures with the synthesized reason `"<title> (异常)"`; the
aggregate is the running tally `(#success, #fail, reasons)`; and for scopes
that fail by returning `False` with nonempty titles, the failure list is
exactly the failing scopes' titles — an empty (falsy) title, however, is
dropped by the source's `if result[1]:` check. -/
theorem batch_partial_failure_spec (out : Group → GOutcome) (groups : List Group) :
    (batch_ban_operation out groups
       = (groups.countP (fun g => out g == .success),
          groups.countP (fun g => !(out g == .success)),
          groups.filterMap (reasonOf out)))
  ∧ (∀ g ∈ groups, out g = .raised →
       (g.title ++ " (异常)") ∈ (batch_ban_operation out groups).2.2)
  ∧ ((∀ g ∈ groups, out g ≠ .raised) →
     (∀ g ∈ groups, out g = .failure → g.title ≠ "") →
       (batch_ban_operation out groups).2.2
         = (groups.filter (fun g => !(out g == .success))).map (·.title)) := by
  refine ⟨batch_ban_operation_eq out groups, ?_, ?_⟩
  · intro g hg hr
    rw [batch_ban_operation_eq]
    exact List.mem_filterMap.2 ⟨g, hg, by simp [reasonOf, hr]⟩
  · intro hnr hne
    rw [batch_ban_operation_eq]
    exact reasons_eq_failed_titles out groups hnr hne

/-- C4 (counterexample to the claim as stated): 25 scopes of which exactly the
5 with ids 20-24 always fail; one failing scope has an empty title, so the
failure list has only 4 entries — not "exactly the 5 failing scopes'
titles" — while the counters still read `succeeded = 20, failed = 5`. -/
theorem batch_partial_failure_empty_title :
    c4Groups.length = 25
  ∧ c4Groups.countP (fun g => !(c4Out g == .success)) = 5
  ∧ batch_ban_operation c4Out c4Groups = (20, 5, ["g21", "g22", "g23", "g24"])
  ∧ (batch_ban_operation c4Out c4Groups).2.2.length = 4 :=
  ⟨rfl, rfl, rfl, rfl⟩

/-- Witness for C4: 25 scopes with nonempty titles, exactly 5 failing (by
returning `False`): the failure list is exactly their titles. -/
theorem batch_partial_failure_spec_witness :
    (batch_ban_operation c4wOut c4wGroups).2.2
      = (c4wGroups.filter (fun g => !(c4wOut g == .success))).map (·.title) :=
  (batch_partial_failure_spec c4wOut c4wGroups).2.2 (by decide) (by decide)

/-! ## Scope-cache machine lemmas -/

theorem countP_set (q : α → Bool) (xs : List α) (n : Nat) (b : α)
    (hn : n < xs.length) :
    (xs.set n b).countP q + (if q xs[n] then 1 else 0)
      = xs.countP q + (if q b then 1 else 0) := by
  rw [List.countP_set q xs n b hn]
  have hbd : (if q xs[n] then 1 else 0) ≤ xs.countP q :=
    List.boole_getElem_le_countP q xs n hn
  omega

theorem gStepCore_none (enum : Except Unit (List Group)) (s : GCState) (i : Nat)
    (h : s.pcs[i]? = none) : gStepCore enum s i = s := by
  unfold gStepCore
  rw [h]

theorem gStepCore_start_fresh (enum : Except Unit (List Group)) (s : GCState)
    (i : Nat) (h : s.pcs[i]? = some .start)
    (hf : cacheFresh s.snap s.clock = true) :
    gStepCore enum s i = { s with pcs := s.pcs.set i (.finished s.snap.data) } := by
  unfold gStepCore
  rw [h]
  simp [hf]

theorem gStepCore_start_stale (enum : Except Unit (List Group)) (s : GCState)
    (i : Nat) (h : s.pcs[i]? = some .start)
    (hf : cacheFresh s.snap s.clock = false) :
    gStepCore enum s i = { s with pcs := s.pcs.set i .waitLock } := by
  unfold gStepCore
  rw [h]
  simp [hf]

theorem gStepCore_waitLock_locked (enum : Except Unit (List Group)) (s : GCState)
    (i : Nat) (h : s.pcs[i]? = some .waitLock) (hl : s.lockHeld = true) :
    gStepCore enum s i = s := by
  unfold gStepCore
  rw [h]
  simp [hl]

theorem gStepCore_waitLock_fresh (enum : Except Unit (List Group)) (s : GCState)
    (i : Nat) (h : s.pcs[i]? = some .waitLock) (hl : s.lockHeld = false)
    (hf : cacheFresh s.snap s.clock = true) :
    gStepCore enum s i = { s with pcs := s.pcs.set i (.finished s.snap.data) } := by
  unfold gStepCore
  rw [h]
  simp [hl, hf]

theorem gStepCore_waitLock_enter (enum : Except Unit (List Group)) (s : GCState)
    (i : Nat) (h : s.pcs[i]? = some .waitLock) (hl : s.lockHeld = false)
    (hf : cacheFresh s.snap s.clock = false) :
    gStepCore enum s i
      = { s with lockHeld := true, pcs := s.pcs.set i .refreshing } := by
  unfold gStepCore
  rw [h]
  simp [hl, hf]

theorem gStepCore_refreshing_ok (g : List Group) (s : GCState) (i : Nat)
    (h : s.pcs[i]? = some .refreshing) :
    gStepCore (.ok g) s i
      = { s with snap := ⟨g, s.clock⟩, lockHeld := false,
                 enumCount := s.enumCount + 1,
                 pcs := s.pcs.set i (.finished g) } := by
  unfold gStepCore
  rw [h]

theorem gStepCore_refreshing_err (u : Unit) (s : GCState) (i : Nat)
    (h : s.pcs[i]? = some .refreshing) :
    gStepCore (.error u) s i
      = { s with lockHeld := false, enumCount := s.enumCount + 1,
                 pcs := s.pcs.set i (.finished []) } := by
  unfold gStepCore
  rw [h]

theorem gStepCore_finished (enum : Except Unit (List Group)) (s : GCState)
    (i : Nat) (r : List Group) (h : s.pcs[i]? = some (.finished r)) :
    gStepCore enum s i = s := by
  unfold gStepCore
  rw [h]

theorem getElem_of_getElem? {l : List α} {i : Nat} {a : α}
    (h : l[i]? = some a) : ∃ hlt : i < l.length, l[i] = a := by
  have hlt : i < l.length := by
    by_contra hge
    rw [List.getElem?_eq_none (Nat.le_of_not_lt hge)] at h
    cases h
  refine ⟨hlt, ?_⟩
  have he := List.getElem?_eq_getElem hlt
  rw [h] at he
  exact (Option.some_inj.1 he.symm)

theorem lockInv_core (enum : Except Unit (List Group)) (s : GCState) (i : Nat)
    (h : LockInv s) : LockInv (gStepCore enum s i) := by
  cases hpc : s.pcs[i]? with
  | none => rw [gStepCore_none enum s i hpc]; exact h
  | some pc =>
    obtain ⟨hlt, hget⟩ := getElem_of_getElem? hpc
    unfold LockInv refreshingCount at h ⊢
    cases pc with
    | start =>
      cases hf : cacheFresh s.snap s.clock with
      | true =>
        rw [gStepCore_start_fresh enum s i hpc hf]
        have hcs := countP_set (· == GPC.refreshing) s.pcs i
          (GPC.finished s.snap.data) hlt
        rw [hget] at hcs
        simp at hcs
        simp only [hcs]
        exact h
      | false =>
        rw [gStepCore_start_stale enum s i hpc hf]
        have hcs := countP_set (· == GPC.refreshing) s.pcs i GPC.waitLock hlt
        rw [hget] at hcs
        simp at hcs
        simp only [hcs]
        exact h
    | waitLock =>
      cases hl : s.lockHeld with
      | true => rw [gStepCore_waitLock_locked enum s i hpc hl]; exact h
      | false =>
        cases hf : cacheFresh s.snap s.clock with
        | true =>
          rw [gStepCore_waitLock_fresh enum s i hpc hl hf]
          have hcs := countP_set (· == GPC.refreshing) s.pcs i
            (GPC.finished s.snap.data) hlt
          rw [hget] at hcs
          simp at hcs
          simp only [hcs]
          exact h
        | false =>
          rw [gStepCore_waitLock_enter enum s i hpc hl hf]
          have hcs := countP_set (· == GPC.refreshing) s.pcs i GPC.refreshing hlt
          rw [hget] at hcs
          simp at hcs
          have h0 : s.pcs.countP (· == GPC.refreshing) = 0 := by rw [h, hl]; simp
          have h1 : (s.pcs.set i GPC.refreshing).countP (· == GPC.refreshing) = 1 := by
            omega
          simpa using h1
    | refreshing =>
      have hone : s.lockHeld = true := by
        by_contra hlf
        rw [Bool.not_eq_true] at hlf
        have h0 : s.pcs.countP (· == GPC.refreshing) = 0 := by rw [h, hlf]; simp
        have hmem : GPC.refreshing ∈ s.pcs := by
          rw [← hget]
          exact s.pcs.getElem_mem hlt
        have h1 : 1 ≤ s.pcs.countP (· == GPC.refreshing) := by
          calc 1 = [GPC.refreshing].countP (· == GPC.refreshing) := by simp
            _ ≤ _ := List.Sublist.countP_le _ (List.singleton_sublist.2 hmem)
        omega
      have h1 : s.pcs.countP (· == GPC.refreshing) = 1 := by rw [h, hone]; simp
      cases enum with
      | ok g =>
        rw [gStepCore_refreshing_ok g s i hpc]
        have hcs := countP_set (· == GPC.refreshing) s.pcs i (GPC.finished g) hlt
        rw [hget] at hcs
        simp at hcs
        have h2 : (s.pcs.set i (GPC.finished g)).countP (· == GPC.refreshing) = 0 := by
          omega
        simpa using h2
      | error u =>
        rw [gStepCore_refreshing_err u s i hpc]
        have hcs := countP_set (· == GPC.refreshing) s.pcs i (GPC.finished []) hlt
        rw [hget] at hcs
        simp at hcs
        have h2 : (s.pcs.set i (GPC.finished [])).countP (· == GPC.refreshing) = 0 := by
          omega
        simpa using h2
    | finished r => rw [gStepCore_finished enum s i r hpc]; exact h

theorem lockInv_step (enum : Except Unit (List Group)) (s : GCState) (i : Nat)
    (h : LockInv s) : LockInv (get_managed_groups_step enum s i) :=
  lockInv_core enum { s with clock := s.clock + 1 } i h

theorem lockInv_run (enum : Except Unit (List Group)) (sch : List Nat)
    (s : GCState) (h : LockInv s) :
    LockInv (get_managed_groups_run enum s sch) := by
  induction sch generalizing s with
  | nil => exact h
  | cons i sch ih => exact ih _ (lockInv_step enum s i h)

theorem cacheFresh_of_empty (snap : GroupCacheSnap) (now : Nat)
    (h : snap.data = []) : cacheFresh snap now = false := by
  unfold cacheFresh
  rw [h]
  rfl

theorem cacheFresh_of_nonempty (snap : GroupCacheSnap) (now : Nat)
    (h : snap.data ≠ []) : cacheFresh snap now = true := by
  unfold cacheFresh
  cases hd : snap.data with
  | nil => exact absurd hd h
  | cons x xs => rfl

theorem singleInv_core (enum : Except Unit (List Group)) (s : GCState) (i : Nat)
    (h : SingleInv enum s) : SingleInv enum (gStepCore enum s i) := by
  rcases h with ⟨hp, he, hd, hl⟩ | ⟨hp, he, hd, hl⟩ | ⟨hp, he, hd, hl⟩ | ⟨hp, he⟩
  · cases i with
    | zero =>
      have hpc : s.pcs[0]? = some GPC.start := by rw [hp]; rfl
      have hf : cacheFresh s.snap s.clock = false := cacheFresh_of_empty _ _ hd
      rw [gStepCore_start_stale enum s 0 hpc hf]
      refine Or.inr (Or.inl ⟨?_, he, hd, hl⟩)
      rw [hp]; rfl
    | succ j =>
      have hpc : s.pcs[j + 1]? = none := by rw [hp]; rfl
      rw [gStepCore_none enum s _ hpc]
      exact Or.inl ⟨hp, he, hd, hl⟩
  · cases i with
    | zero =>
      have hpc : s.pcs[0]? = some GPC.waitLock := by rw [hp]; rfl
      have hf : cacheFresh s.snap s.clock = false := cacheFresh_of_empty _ _ hd
      rw [gStepCore_waitLock_enter enum s 0 hpc hl hf]
      refine Or.inr (Or.inr (Or.inl ⟨?_, he, hd, rfl⟩))
      rw [hp]; rfl
    | succ j =>
      have hpc : s.pcs[j + 1]? = none := by rw [hp]; rfl
      rw [gStepCore_none enum s _ hpc]
      exact Or.inr (Or.inl ⟨hp, he, hd, hl⟩)
  · cases i with
    | zero =>
      have hpc : s.pcs[0]? = some GPC.refreshing := by rw [hp]; rfl
      cases enum with
      | ok g =>
        rw [gStepCore_refreshing_ok g s 0 hpc]
        refine Or.inr (Or.inr (Or.inr ⟨?_, by rw [he]⟩))
        rw [hp]; rfl
      | error u =>
        rw [gStepCore_refreshing_err u s 0 hpc]
        refine Or.inr (Or.inr (Or.inr ⟨?_, by rw [he]⟩))
        rw [hp]; rfl
    | succ j =>
      have hpc : s.pcs[j + 1]? = none := by rw [hp]; rfl
      rw [gStepCore_none enum s _ hpc]
      exact Or.inr (Or.inr (Or.inl ⟨hp, he, hd, hl⟩))
  · cases i with
    | zero =>
      have hpc : s.pcs[0]? = some (GPC.finished (enumData enum)) := by rw [hp]; rfl
      rw [gStepCore_finished enum s 0 _ hpc]
      exact Or.inr (Or.inr (Or.inr ⟨hp, he⟩))
    | succ j =>
      have hpc : s.pcs[j + 1]? = none := by rw [hp]; rfl
      rw [gStepCore_none enum s _ hpc]
      exact Or.inr (Or.inr (Or.inr ⟨hp, he⟩))

theorem singleInv_run (enum : Except Unit (List Group)) (sch : List Nat)
    (s : GCState) (h : SingleInv enum s) :
    SingleInv enum (get_managed_groups_run enum s sch) := by
  induction sch generalizing s with
  | nil => exact h
  | cons i sch ih =>
    exact ih _ (singleInv_core enum { s with clock := s.clock + 1 } i h)

/-- C8: the refresh command's invalidation clears data and timestamp without
fetching, independently of what was cached; a single `get_managed_groups`
caller started right after it runs exactly one enumeration (whatever its
outcome) and returns the fresh enumeration's result — the previously cached
data, being cleared, is never reused. -/
theorem invalidate_then_get_spec (c : GroupCacheSnap)
    (enum : Except Unit (List Group)) (sch : List Nat) :
    invalidateCache c = ⟨[], 0⟩
  ∧ ((∀ pc ∈ (get_managed_groups_run enum (gInit (invalidateCache c) 1) sch).pcs,
        gFinished pc = true) →
      (get_managed_groups_run enum (gInit (invalidateCache c) 1) sch).enumCount = 1
      ∧ (get_managed_groups_run enum (gInit (invalidateCache c) 1) sch).pcs
          = [GPC.finished (enumData enum)]) := by
  refine ⟨rfl, ?_⟩
  intro hfin
  have hinv : SingleInv enum
      (get_managed_groups_run enum (gInit (invalidateCache c) 1) sch) :=
    singleInv_run enum sch _ (Or.inl ⟨rfl, rfl, rfl, rfl⟩)
  rcases hinv with ⟨hp, _, _, _⟩ | ⟨hp, _, _, _⟩ | ⟨hp, _, _, _⟩ | ⟨hp, he⟩
  · exact absurd (hfin GPC.start (by simp [hp])) (by decide)
  · exact absurd (hfin GPC.waitLock (by simp [hp])) (by decide)
  · exact absurd (hfin GPC.refreshing (by simp [hp])) (by decide)
  · exact ⟨he, hp⟩

/-- Witness for C8: a concrete invalidate-then-get run over a non-trivial
previous cache refreshes exactly once and returns the fresh enumeration. -/
theorem invalidate_then_get_spec_witness :
    (get_managed_groups_run (.ok c2Groups)
        (gInit (invalidateCache ⟨c2Groups, 5⟩) 1) [0, 0, 0]).enumCount = 1
  ∧ (get_managed_groups_run (.ok c2Groups)
        (gInit (invalidateCache ⟨c2Groups, 5⟩) 1) [0, 0, 0]).pcs
      = [GPC.finished (enumData (.ok c2Groups))] :=
  (invalidate_then_get_spec ⟨c2Groups, 5⟩ (.ok c2Groups) [0, 0, 0]).2 (by decide)

theorem refreshing_count_pos (s : GCState) (h : GPC.refreshing ∈ s.pcs) :
    1 ≤ refreshingCount s := by
  unfold refreshingCount
  calc 1 = [GPC.refreshing].countP (· == GPC.refreshing) := by simp
    _ ≤ _ := List.Sublist.countP_le _ (List.singleton_sublist.2 h)

theorem collapseInv_core (G : List Group) (hG : G ≠ []) (s : GCState) (i : Nat)
    (h : CollapseInv G s) : CollapseInv G (gStepCore (.ok G) s i) := by
  obtain ⟨hlock, hphase, hres⟩ := h
  have hlock' := lockInv_core (.ok G) s i hlock
  cases hpc : s.pcs[i]? with
  | none =>
    rw [gStepCore_none _ _ _ hpc] at hlock' ⊢
    exact ⟨hlock', hphase, hres⟩
  | some pc =>
    obtain ⟨hlt, hget⟩ := getElem_of_getElem? hpc
    cases pc with
    | start =>
      cases hf : cacheFresh s.snap s.clock with
      | true =>
        rw [gStepCore_start_fresh _ _ _ hpc hf] at hlock' ⊢
        rcases hphase with ⟨he, hd, hnf⟩ | ⟨he, hd, hl⟩
        · exact absurd ((cacheFresh_of_empty s.snap s.clock hd).symm.trans hf)
              (by decide)
        · refine ⟨hlock', Or.inr ⟨he, hd, hl⟩, ?_⟩
          intro r hr
          rcases List.mem_or_eq_of_mem_set hr with hmem | heq
          · exact hres r hmem
          · injection heq with h1
            rw [h1, hd]
      | false =>
        rw [gStepCore_start_stale _ _ _ hpc hf] at hlock' ⊢
        rcases hphase with ⟨he, hd, hnf⟩ | ⟨he, hd, hl⟩
        · refine ⟨hlock', Or.inl ⟨he, hd, ?_⟩, ?_⟩
          · intro pc' hpc'
            rcases List.mem_or_eq_of_mem_set hpc' with hmem | heq
            · exact hnf pc' hmem
            · rw [heq]; rfl
          · intro r hr
            rcases List.mem_or_eq_of_mem_set hr with hmem | heq
            · exact hres r hmem
            · cases heq
        · refine ⟨hlock', Or.inr ⟨he, hd, hl⟩, ?_⟩
          intro r hr
          rcases List.mem_or_eq_of_mem_set hr with hmem | heq
          · exact hres r hmem
          · cases heq
    | waitLock =>
      cases hl : s.lockHeld with
      | true =>
        rw [gStepCore_waitLock_locked _ _ _ hpc hl] at hlock' ⊢
        exact ⟨hlock', hphase, hres⟩
      | false =>
        cases hf : cacheFresh s.snap s.clock with
        | true =>
          rw [gStepCore_waitLock_fresh _ _ _ hpc hl hf] at hlock' ⊢
          rcases hphase with ⟨he, hd, hnf⟩ | ⟨he, hd, hlB⟩
          · exact absurd ((cacheFresh_of_empty s.snap s.clock hd).symm.trans hf)
              (by decide)
          · refine ⟨hlock', Or.inr ⟨he, hd, hlB⟩, ?_⟩
            intro r hr
            rcases List.mem_or_eq_of_mem_set hr with hmem | heq
            · exact hres r hmem
            · injection heq with h1
              rw [h1, hd]
        | false =>
          rw [gStepCore_waitLock_enter _ _ _ hpc hl hf] at hlock' ⊢
          rcases hphase with ⟨he, hd, hnf⟩ | ⟨he, hd, hlB⟩
          · refine ⟨hlock', Or.inl ⟨he, hd, ?_⟩, ?_⟩
            · intro pc' hpc'
              rcases List.mem_or_eq_of_mem_set hpc' with hmem | heq
              · exact hnf pc' hmem
              · rw [heq]; rfl
            · intro r hr
              rcases List.mem_or_eq_of_mem_set hr with hmem | heq
              · exact hres r hmem
              · cases heq
          · exact absurd ((cacheFresh_of_nonempty s.snap s.clock
                (by rw [hd]; exact hG)).symm.trans hf) (by decide)
    | refreshing =>
      rcases hphase with ⟨he, hd, hnf⟩ | ⟨he, hd, hlB⟩
      · rw [gStepCore_refreshing_ok G s i hpc] at hlock' ⊢
        refine ⟨hlock', Or.inr ⟨by rw [he], rfl, rfl⟩, ?_⟩
        intro r hr
        rcases List.mem_or_eq_of_mem_set hr with hmem | heq
        · have := hnf _ hmem
          simp [gFinished] at this
        · injection heq
      · have hct : 1 ≤ refreshingCount s :=
          refreshing_count_pos s (by rw [← hget]; exact s.pcs.getElem_mem hlt)
        unfold LockInv at hlock
        rw [hlB] at hlock
        simp at hlock
        omega
    | finished r =>
      rw [gStepCore_finished _ _ _ r hpc] at hlock' ⊢
      exact ⟨hlock', hphase, hres⟩

theorem collapseInv_run (G : List Group) (hG : G ≠ []) (sch : List Nat)
    (s : GCState) (h : CollapseInv G s) :
    CollapseInv G (get_managed_groups_run (.ok G) s sch) := by
  induction sch generalizing s with
  | nil => exact h
  | cons i sch ih =>
    exact ih _ (collapseInv_core G hG { s with clock := s.clock + 1 } i h)

theorem gStepCore_pcs_length (enum : Except Unit (List Group)) (s : GCState)
    (i : Nat) : (gStepCore enum s i).pcs.length = s.pcs.length := by
  cases hpc : s.pcs[i]? with
  | none => rw [gStepCore_none _ _ _ hpc]
  | some pc =>
    cases pc with
    | start =>
      cases hf : cacheFresh s.snap s.clock with
      | true => rw [gStepCore_start_fresh _ _ _ hpc hf]; simp
      | false => rw [gStepCore_start_stale _ _ _ hpc hf]; simp
    | waitLock =>
      cases hl : s.lockHeld with
      | true => rw [gStepCore_waitLock_locked _ _ _ hpc hl]
      | false =>
        cases hf : cacheFresh s.snap s.clock with
        | true => rw [gStepCore_waitLock_fresh _ _ _ hpc hl hf]; simp
        | false => rw [gStepCore_waitLock_enter _ _ _ hpc hl hf]; simp
    | refreshing =>
      cases enum with
      | ok g => rw [gStepCore_refreshing_ok g s i hpc]; simp
      | error u => rw [gStepCore_refreshing_err u s i hpc]; simp
    | finished r => rw [gStepCore_finished _ _ _ r hpc]

theorem g_run_pcs_length (enum : Except Unit (List Group)) (sch : List Nat)
    (s : GCState) :
    (get_managed_groups_run enum s sch).pcs.length = s.pcs.length := by
  induction sch generalizing s with
  | nil => rfl
  | cons i sch ih =>
    calc (get_managed_groups_run enum s (i :: sch)).pcs.length
        = ({ s with clock := s.clock + 1 } : GCState).pcs.length := by
          exact (ih _).trans (gStepCore_pcs_length enum _ i)
      _ = s.pcs.length := rfl

theorem gInit_lockInv (snap0 : GroupCacheSnap) (n : Nat) :
    LockInv (gInit snap0 n) := by
  unfold LockInv refreshingCount gInit
  simp [List.countP_eq_zero, List.mem_replicate]

/-- C2 (amended): at most one refresh is ever in flight (the lock collapses
concurrent refreshes); and when the enumeration deterministically yields a
NONEMPTY sequence `G`, any complete run of `n ≥ 1` concurrent cold-cache
callers performs exactly one enumeration and every caller returns `G`.
(When the enumeration yields `[]` the empty result fails the freshness check
and is re-enumerated by each caller — see the counterexample.) -/
theorem cache_collapse_spec (enum : Except Unit (List Group))
    (snap0 : GroupCacheSnap) (n : Nat) (sch : List Nat) (G : List Group) :
    refreshingCount (get_managed_groups_run enum (gInit snap0 n) sch) ≤ 1
  ∧ (G ≠ [] → 1 ≤ n →
      (∀ pc ∈ (get_managed_groups_run (.ok G) (gInit ⟨[], 0⟩ n) sch).pcs,
         gFinished pc = true) →
      (get_managed_groups_run (.ok G) (gInit ⟨[], 0⟩ n) sch).enumCount = 1
      ∧ ∀ pc ∈ (get_managed_groups_run (.ok G) (gInit ⟨[], 0⟩ n) sch).pcs,
          pc = GPC.finished G) := by
  constructor
  · have hl := lockInv_run enum sch _ (gInit_lockInv snap0 n)
    unfold LockInv at hl
    rw [hl]
    cases (get_managed_groups_run enum (gInit snap0 n) sch).lockHeld <;> simp
  · intro hG hn hfin
    have hinit : CollapseInv G (gInit ⟨[], 0⟩ n) := by
      refine ⟨gInit_lockInv _ n, Or.inl ⟨rfl, rfl, ?_⟩, ?_⟩
      · intro pc hpc
        rw [List.eq_of_mem_replicate hpc]
        rfl
      · intro r hr
        have := List.eq_of_mem_replicate hr
        cases this
    obtain ⟨hlock, hphase, hres⟩ := collapseInv_run G hG sch _ hinit
    rcases hphase with ⟨he, hd, hnf⟩ | ⟨he, hd, hl⟩
    · exfalso
      have hlen : (get_managed_groups_run (.ok G) (gInit ⟨[], 0⟩ n) sch).pcs.length
          = n := by
        rw [g_run_pcs_length]
        simp [gInit]
      have hne : (get_managed_groups_run (.ok G) (gInit ⟨[], 0⟩ n) sch).pcs ≠ [] := by
        intro hnil
        rw [hnil] at hlen
        simp at hlen
        omega
      obtain ⟨pc, hpc⟩ := List.exists_mem_of_ne_nil _ hne
      have h1 := hfin pc hpc
      have h2 := hnf pc hpc
      rw [h1] at h2
      cases h2
    · refine ⟨he, ?_⟩
      intro pc hpc
      have hf := hfin pc hpc
      cases pc with
      | finished r => rw [hres r hpc]
      | start => cases hf
      | waitLock => cases hf
      | refreshing => cases hf

/-- C2 (counterexample to the claim as stated): when the account administers
no scopes the enumeration legitimately returns `[]`; the empty result is
written but fails the freshness check, so each of 2 concurrent cold-cache
callers executes its own (serialized) enumeration: two enumerations for one
cold cache, although both callers still return the same `[]`. -/
theorem cache_collapse_empty_enum :
    (get_managed_groups_run (.ok []) (gInit ⟨[], 0⟩ 2) [0, 0, 0, 1, 1, 1]).enumCount
      = 2
  ∧ (get_managed_groups_run (.ok []) (gInit ⟨[], 0⟩ 2) [0, 0, 0, 1, 1, 1]).pcs
      = [GPC.finished [], GPC.finished []] :=
  ⟨rfl, rfl⟩

/-- Witness for C2: three concurrent callers, seven administered scopes —
exactly one refresh, all three return the identical 7-element sequence. -/
theorem cache_collapse_spec_witness :
    (get_managed_groups_run (.ok c2Groups) (gInit ⟨[], 0⟩ 3) [0, 0, 0, 1, 2]).enumCount
      = 1
  ∧ ∀ pc ∈ (get_managed_groups_run (.ok c2Groups) (gInit ⟨[], 0⟩ 3)
        [0, 0, 0, 1, 2]).pcs, pc = GPC.finished c2Groups :=
  (cache_collapse_spec (.ok c2Groups) ⟨[], 0⟩ 3 [0, 0, 0, 1, 2] c2Groups).2
    (by decide) (by decide) (by decide)

/-! ## Refresh-content lemmas (probe filtering) -/

theorem foldl_append_filterMap (f : α → Option γ) :
    ∀ (L : List (List α)) (init : List γ),
      L.foldl (fun acc b => acc ++ b.filterMap f) init
        = init ++ L.flatten.filterMap f := by
  intro L
  induction L with
  | nil => intro init; simp
  | cons chunk L ih =>
    intro init
    rw [List.foldl_cons, ih, List.flatten_cons, List.filterMap_append,
      List.append_assoc]

theorem collect_managed_groups_eq (probe : Int → ProbeRes) (dialogs : List Dialog) :
    collect_managed_groups probe dialogs
      = (dialogs.filter (fun d => d.is_group || d.is_channel)).filterMap
          (check_group probe) := by
  unfold collect_managed_groups
  rw [foldl_append_filterMap, chunksOf_flatten]
  rfl

theorem check_group_eq_some (probe : Int → ProbeRes) (d : Dialog) (g : Group) :
    check_group probe d = some g ↔
      ∃ r, probe d.id = .ok (some r) ∧ r.ban_users = true ∧
        g = ⟨d.id, d.title⟩ := by
  unfold check_group
  cases hp : probe d.id with
  | ok o =>
    cases o with
    | some r =>
      dsimp only
      cases hb : r.ban_users with
      | true =>
        rw [if_pos rfl]
        constructor
        · intro hc
          exact ⟨r, rfl, hb, (Option.some_inj.1 hc).symm⟩
        · rintro ⟨r', hr', hb', rfl⟩
          rfl
      | false =>
        rw [if_neg Bool.false_ne_true]
        constructor
        · intro hc; cases hc
        · rintro ⟨r', hr', hb', rfl⟩
          have hrr : r = r' := by
            injection hr' with h1
            injection h1
          rw [← hrr] at hb'
          rw [hb] at hb'
          cases hb'
    | none =>
      dsimp only
      constructor
      · intro hc; cases hc
      · rintro ⟨r', hr', _, _⟩
        simp at hr'
  | error u =>
    dsimp only
    constructor
    · intro hc; cases hc
    · rintro ⟨r', hr', _, _⟩
      simp at hr'

/-- C5: after a refresh, the collected scope list is exactly the group/channel
dialogs whose permission probe succeeded and reported `ban_users` — a failed
or rights-less probe excludes just that dialog; and when the whole enumeration
raises, a (cold-cache) caller gets `[]` back instead of an exception. -/
theorem refresh_filter_spec (probe : Int → ProbeRes) (dialogs : List Dialog) :
    (collect_managed_groups probe dialogs
       = (dialogs.filter (fun d => d.is_group || d.is_channel)).filterMap
           (check_group probe))
  ∧ (∀ g : Group, g ∈ collect_managed_groups probe dialogs ↔
       ∃ d ∈ dialogs, (d.is_group || d.is_channel) = true ∧
         (∃ r, probe d.id = .ok (some r) ∧ r.ban_users = true) ∧
         g = ⟨d.id, d.title⟩)
  ∧ (∀ (c : GroupCacheSnap) (sch : List Nat), c.data = [] →
       (∀ pc ∈ (get_managed_groups_run (.error ()) (gInit c 1) sch).pcs,
          gFinished pc = true) →
       (get_managed_groups_run (.error ()) (gInit c 1) sch).pcs
         = [GPC.finished []]) := by
  refine ⟨collect_managed_groups_eq probe dialogs, ?_, ?_⟩
  · intro g
    rw [collect_managed_groups_eq]
    simp only [List.mem_filterMap, List.mem_filter, check_group_eq_some]
    constructor
    · rintro ⟨d, ⟨hd, hgc⟩, r, hpr, hb, rfl⟩
      exact ⟨d, hd, hgc, ⟨r, hpr, hb⟩, rfl⟩
    · rintro ⟨d, hd, hgc, ⟨r, hpr, hb⟩, rfl⟩
      exact ⟨d, ⟨hd, hgc⟩, r, hpr, hb, rfl⟩
  · intro c sch hc hfin
    have hinv : SingleInv (.error ())
        (get_managed_groups_run (.error ()) (gInit c 1) sch) :=
      singleInv_run _ sch _ (Or.inl ⟨rfl, rfl, hc, rfl⟩)
    rcases hinv with ⟨hp, _, _, _⟩ | ⟨hp, _, _, _⟩ | ⟨hp, _, _, _⟩ | ⟨hp, _⟩
    · exact absurd (hfin GPC.start (by simp [hp])) (by decide)
    · exact absurd (hfin GPC.waitLock (by simp [hp])) (by decide)
    · exact absurd (hfin GPC.refreshing (by simp [hp])) (by decide)
    · exact hp

/-- Witness for C5: a cold-cache caller over a raising enumeration returns
`[]`. -/
theorem refresh_filter_spec_witness :
    (get_managed_groups_run (.error ()) (gInit ⟨[], 7⟩ 1) [0, 0, 0]).pcs
      = [GPC.finished []] :=
  (refresh_filter_spec (fun _ => Except.error ()) []).2.2 ⟨[], 7⟩ [0, 0, 0]
    rfl (by decide)

/-! ## Resolver machine: step equations -/

theorem rStep_env_none (uid : Int) (envs : List ProbeEnv) (s : RState) (i : Nat)
    (he : envs[i]? = none) : resolver_probe_step uid envs s i = s := by
  unfold resolver_probe_step
  rw [he]

theorem rStep_pc_none (uid : Int) (envs : List ProbeEnv) (s : RState) (i : Nat)
    (hp : s.pcs[i]? = none) : resolver_probe_step uid envs s i = s := by
  unfold resolver_probe_step
  rw [hp]
  cases envs[i]? <;> rfl

theorem rStep_waiting_blocked (uid : Int) (envs : List ProbeEnv) (s : RState)
    (i : Nat) (e : ProbeEnv) (he : envs[i]? = some e)
    (hp : s.pcs[i]? = some .waiting) (hs : s.sem = 0) :
    resolver_probe_step uid envs s i = s := by
  unfold resolver_probe_step
  rw [he, hp]
  simp [hs]

theorem rStep_waiting_signal (uid : Int) (envs : List ProbeEnv) (s : RState)
    (i : Nat) (e : ProbeEnv) (he : envs[i]? = some e)
    (hp : s.pcs[i]? = some .waiting) (hs : s.sem ≠ 0) (hsig : s.signal = true) :
    resolver_probe_step uid envs s i
      = { s with pcs := s.pcs.set i .finished } := by
  unfold resolver_probe_step
  rw [he, hp]
  simp [hs, hsig]

theorem rStep_waiting_go (uid : Int) (envs : List ProbeEnv) (s : RState)
    (i : Nat) (e : ProbeEnv) (he : envs[i]? = some e)
    (hp : s.pcs[i]? = some .waiting) (hs : s.sem ≠ 0) (hsig : s.signal = false) :
    resolver_probe_step uid envs s i
      = { s with sem := s.sem - 1, pcs := s.pcs.set i .inCheap,
                 trace := s.trace ++ [.call i] } := by
  unfold resolver_probe_step
  rw [he, hp]
  simp [hs, hsig]

theorem rStep_cheap_found (uid : Int) (envs : List ProbeEnv) (s : RState)
    (i : Nat) (e : ProbeEnv) (u : Ident) (he : envs[i]? = some e)
    (hp : s.pcs[i]? = some .inCheap)
    (hf : e.cheap.find? (fun u => u.id == uid) = some u) :
    resolver_probe_step uid envs s i
      = { s with found := some u, signal := true, pcs := s.pcs.set i .finished,
                 sem := s.sem + 1, trace := s.trace ++ [.matched i] } := by
  unfold resolver_probe_step
  rw [he, hp]
  simp [hf]

theorem rStep_cheap_miss_signal (uid : Int) (envs : List ProbeEnv) (s : RState)
    (i : Nat) (e : ProbeEnv) (he : envs[i]? = some e)
    (hp : s.pcs[i]? = some .inCheap)
    (hf : e.cheap.find? (fun u => u.id == uid) = none) (hsig : s.signal = true) :
    resolver_probe_step uid envs s i
      = { s with pcs := s.pcs.set i .finished, sem := s.sem + 1 } := by
  unfold resolver_probe_step
  rw [he, hp]
  simp [hf, hsig]

theorem rStep_cheap_miss_empty (uid : Int) (envs : List ProbeEnv) (s : RState)
    (i : Nat) (e : ProbeEnv) (he : envs[i]? = some e)
    (hp : s.pcs[i]? = some .inCheap)
    (hf : e.cheap.find? (fun u => u.id == uid) = none) (hsig : s.signal = false)
    (hm : e.members = []) :
    resolver_probe_step uid envs s i
      = { s with pcs := s.pcs.set i .finished, sem := s.sem + 1 } := by
  unfold resolver_probe_step
  rw [he, hp]
  simp [hf, hsig, hm]

theorem rStep_cheap_miss_scan (uid : Int) (envs : List ProbeEnv) (s : RState)
    (i : Nat) (e : ProbeEnv) (v : Ident) (vs : List Ident)
    (he : envs[i]? = some e) (hp : s.pcs[i]? = some .inCheap)
    (hf : e.cheap.find? (fun u => u.id == uid) = none) (hsig : s.signal = false)
    (hm : e.members = v :: vs) :
    resolver_probe_step uid envs s i
      = { s with pcs := s.pcs.set i (.inScan 0),
                 trace := s.trace ++ [.call i] } := by
  unfold resolver_probe_step
  rw [he, hp]
  simp [hf, hsig, hm]

theorem rStep_scan_out (uid : Int) (envs : List ProbeEnv) (s : RState)
    (i k : Nat) (e : ProbeEnv) (he : envs[i]? = some e)
    (hp : s.pcs[i]? = some (.inScan k)) (hk : e.members[k]? = none) :
    resolver_probe_step uid envs s i
      = { s with pcs := s.pcs.set i .finished, sem := s.sem + 1 } := by
  unfold resolver_probe_step
  rw [he, hp]
  simp [hk]

theorem rStep_scan_found (uid : Int) (envs : List ProbeEnv) (s : RState)
    (i k : Nat) (e : ProbeEnv) (u : Ident) (he : envs[i]? = some e)
    (hp : s.pcs[i]? = some (.inScan k)) (hk : e.members[k]? = some u)
    (hu : (u.id == uid) = true) :
    resolver_probe_step uid envs s i
      = { s with found := some u, signal := true, pcs := s.pcs.set i .finished,
                 sem := s.sem + 1, trace := s.trace ++ [.matched i] } := by
  unfold resolver_probe_step
  rw [he, hp]
  simp [hk, hu]

theorem rStep_scan_next (uid : Int) (envs : List ProbeEnv) (s : RState)
    (i k : Nat) (e : ProbeEnv) (u : Ident) (he : envs[i]? = some e)
    (hp : s.pcs[i]? = some (.inScan k)) (hk : e.members[k]? = some u)
    (hu : (u.id == uid) = false) (hlt : k + 1 < e.members.length) :
    resolver_probe_step uid envs s i
      = { s with pcs := s.pcs.set i (.inScan (k + 1)),
                 trace := s.trace ++ [.call i] } := by
  unfold resolver_probe_step
  rw [he, hp]
  simp [hk, hu, hlt]

theorem rStep_scan_end (uid : Int) (envs : List ProbeEnv) (s : RState)
    (i k : Nat) (e : ProbeEnv) (u : Ident) (he : envs[i]? = some e)
    (hp : s.pcs[i]? = some (.inScan k)) (hk : e.members[k]? = some u)
    (hu : (u.id == uid) = false) (hge : ¬ k + 1 < e.members.length) :
    resolver_probe_step uid envs s i
      = { s with pcs := s.pcs.set i .finished, sem := s.sem + 1 } := by
  unfold resolver_probe_step
  rw [he, hp]
  simp [hk, hu, hge]

theorem rStep_finished (uid : Int) (envs : List ProbeEnv) (s : RState)
    (i : Nat) (e : ProbeEnv) (he : envs[i]? = some e)
    (hp : s.pcs[i]? = some .finished) :
    resolver_probe_step uid envs s i = s := by
  unfold resolver_probe_step
  rw [he, hp]

theorem rMain_halted (uid : Int) (s : RState) (h : s.result.isSome) :
    resolver_main_step uid s = s := by
  unfold resolver_main_step
  simp [h]

theorem rMain_fire (uid : Int) (s : RState) (h : s.result = none)
    (hc : (s.signal || s.pcs.all (· == PPC.finished)) = true) :
    resolver_main_step uid s
      = { s with pcs := s.pcs.map (fun _ => .finished),
                 sem := PARALLEL_LIMIT,
                 result := some s.found,
                 cache :=
                   match s.found with
                   | some u => (uid, u) :: s.cache
                   | none => s.cache } := by
  unfold resolver_main_step
  rw [h]
  simp [hc]

theorem rMain_wait (uid : Int) (s : RState) (h : s.result = none)
    (hc : (s.signal || s.pcs.all (· == PPC.finished)) = false) :
    resolver_main_step uid s = s := by
  unfold resolver_main_step
  rw [h]
  simp [hc]

/-! ## Resolver machine: invariant preservation -/

theorem find?_eq_some_of_first (p : Ident → Bool) :
    ∀ (l : List Ident) (k : Nat) (u : Ident), l[k]? = some u → p u = true →
      (∀ j, j < k → ∀ v, l[j]? = some v → p v = false) →
      l.find? p = some u := by
  intro l
  induction l with
  | nil => intro k u hk; simp at hk
  | cons x xs ih =>
    intro k u hk hu hbef
    cases k with
    | zero =>
      simp at hk
      rw [← hk] at hu
      rw [List.find?_cons_of_pos _ hu, hk]
    | succ k =>
      have hx : p x = false := hbef 0 (Nat.succ_pos k) x (by simp)
      have hk' : xs[k]? = some u := by simpa using hk
      have hbef' : ∀ j : Nat, j < k → ∀ v : Ident, xs[j]? = some v → p v = false := by
        intro j hj v hv
        exact hbef (j + 1) (Nat.succ_lt_succ hj) v (by simpa using hv)
      rw [List.find?_cons_of_neg _ (by rw [hx]; exact Bool.false_ne_true)]
      exact ih k u hk' hu hbef'

theorem find?_eq_none_of_all (p : Ident → Bool) (l : List Ident)
    (h : ∀ j : Nat, ∀ v : Ident, l[j]? = some v → p v = false) :
    l.find? p = none := by
  rw [List.find?_eq_none]
  intro x hx
  obtain ⟨j, hj, hget⟩ := List.mem_iff_getElem.1 hx
  have hx' : l[j]? = some x := by
    rw [List.getElem?_eq_getElem hj, hget]
  have := h j x hx'
  rw [this]
  exact Bool.false_ne_true

theorem taskInv_mono {uid : Int} {e : ProbeEnv} {sig : Bool} {pc : PPC}
    (h : TaskInv uid e sig pc) : TaskInv uid e true pc := by
  cases pc with
  | finished => exact Or.inl rfl
  | inScan k => exact h
  | waiting => trivial
  | inCheap => trivial

theorem result_none_of_active (uid : Int) (envs : List ProbeEnv)
    (cache0 : List (Int × Ident)) (s : RState) (inv : RInv uid envs cache0 s)
    (i : Nat) (pc : PPC) (hp : s.pcs[i]? = some pc) (hne : pc ≠ PPC.finished) :
    s.result = none := by
  cases hres : s.result with
  | none => rfl
  | some r =>
    obtain ⟨hlt, hget⟩ := getElem_of_getElem? hp
    have := (inv.halt r hres).2.1 pc (by rw [← hget]; exact s.pcs.getElem_mem hlt)
    exact absurd this hne

theorem rInv_release (uid : Int) (envs : List ProbeEnv)
    (cache0 : List (Int × Ident)) (s : RState) (i : Nat) (pc : PPC)
    (inv : RInv uid envs cache0 s) (hilt : i < envs.length)
    (hp : s.pcs[i]? = some pc) (hhold : holdsSlot pc = true)
    (hres : s.result = none)
    (htask : TaskInv uid envs[i] s.signal PPC.finished) :
    RInv uid envs cache0
      { s with pcs := s.pcs.set i .finished, sem := s.sem + 1 } := by
  obtain ⟨hplt, hpget⟩ := getElem_of_getElem? hp
  refine ⟨?_, ?_, inv.sig, inv.found_src, ?_, ?_, ?_⟩
  · simp [inv.len]
  · have hcs := countP_set holdsSlot s.pcs i PPC.finished hplt
    rw [hpget, hhold] at hcs
    simp [holdsSlot] at hcs
    have hsb := inv.semBal
    unfold rHolding at hsb
    show s.sem + 1 + (s.pcs.set i PPC.finished).countP holdsSlot = PARALLEL_LIMIT
    omega
  · intro j hj pc' hpc'
    by_cases hji : j = i
    · subst hji
      rw [List.getElem?_set_self hplt] at hpc'
      cases hpc'
      exact htask
    · rw [List.getElem?_set_ne (fun hh => hji hh.symm)] at hpc'
      exact inv.tinv j hj pc' hpc'
  · intro _
    exact inv.resv hres
  · intro r hr
    rw [hres] at hr
    cases hr

theorem rInv_found (uid : Int) (envs : List ProbeEnv)
    (cache0 : List (Int × Ident)) (s : RState) (i : Nat) (pc : PPC) (u : Ident)
    (inv : RInv uid envs cache0 s) (hilt : i < envs.length)
    (hp : s.pcs[i]? = some pc) (hhold : holdsSlot pc = true)
    (hres : s.result = none)
    (hans : probeAnswer uid envs[i] = some u) (tr : List REv) :
    RInv uid envs cache0
      { s with found := some u, signal := true, pcs := s.pcs.set i .finished,
               sem := s.sem + 1, trace := tr } := by
  obtain ⟨hplt, hpget⟩ := getElem_of_getElem? hp
  refine ⟨?_, ?_, rfl, ?_, ?_, ?_, ?_⟩
  · simp [inv.len]
  · have hcs := countP_set holdsSlot s.pcs i PPC.finished hplt
    rw [hpget, hhold] at hcs
    simp [holdsSlot] at hcs
    have hsb := inv.semBal
    unfold rHolding at hsb
    show s.sem + 1 + (s.pcs.set i PPC.finished).countP holdsSlot = PARALLEL_LIMIT
    omega
  · intro u' hu'
    injection hu' with hu'
    exact ⟨envs[i], envs.getElem_mem hilt, by rw [hu'] at hans; exact hans⟩
  · intro j hj pc' hpc'
    by_cases hji : j = i
    · subst hji
      rw [List.getElem?_set_self hplt] at hpc'
      cases hpc'
      exact Or.inl rfl
    · rw [List.getElem?_set_ne (fun hh => hji hh.symm)] at hpc'
      exact taskInv_mono (inv.tinv j hj pc' hpc')
  · intro _
    exact inv.resv hres
  · intro r hr
    rw [hres] at hr
    cases hr

theorem rInv_probe_step (uid : Int) (envs : List ProbeEnv)
    (cache0 : List (Int × Ident)) (s : RState) (i : Nat)
    (inv : RInv uid envs cache0 s) :
    RInv uid envs cache0 (resolver_probe_step uid envs s i) := by
  cases he : envs[i]? with
  | none => rw [rStep_env_none uid envs s i he]; exact inv
  | some e =>
    cases hp : s.pcs[i]? with
    | none => rw [rStep_pc_none uid envs s i hp]; exact inv
    | some pc =>
      obtain ⟨hilt, hienv⟩ := getElem_of_getElem? he
      obtain ⟨hplt, hpget⟩ := getElem_of_getElem? hp
      cases pc with
      | waiting =>
        have hres : s.result = none :=
          result_none_of_active uid envs cache0 s inv i .waiting hp
            (by intro hh; cases hh)
        by_cases hs : s.sem = 0
        · rw [rStep_waiting_blocked uid envs s i e he hp hs]; exact inv
        · cases hsig : s.signal with
          | true =>
            rw [rStep_waiting_signal uid envs s i e he hp hs hsig]
            refine ⟨by simp [inv.len], ?_, inv.sig, inv.found_src, ?_,
              fun _ => inv.resv hres, ?_⟩
            · have hcs := countP_set holdsSlot s.pcs i PPC.finished hplt
              rw [hpget] at hcs
              simp [holdsSlot] at hcs
              have hsb := inv.semBal
              unfold rHolding at hsb
              show s.sem + (s.pcs.set i PPC.finished).countP holdsSlot
                = PARALLEL_LIMIT
              omega
            · intro j hj pc' hpc'
              by_cases hji : j = i
              · subst hji
                rw [List.getElem?_set_self hplt] at hpc'
                cases hpc'
                exact Or.inl hsig
              · rw [List.getElem?_set_ne (fun hh => hji hh.symm)] at hpc'
                exact inv.tinv j hj pc' hpc'
            · intro r hr; rw [hres] at hr; cases hr
          | false =>
            rw [rStep_waiting_go uid envs s i e he hp hs hsig]
            refine ⟨by simp [inv.len], ?_, inv.sig, inv.found_src, ?_,
              fun _ => inv.resv hres, ?_⟩
            · have hcs := countP_set holdsSlot s.pcs i PPC.inCheap hplt
              rw [hpget] at hcs
              simp [holdsSlot] at hcs
              have hsb := inv.semBal
              unfold rHolding at hsb
              show s.sem - 1 + (s.pcs.set i PPC.inCheap).countP holdsSlot
                = PARALLEL_LIMIT
              omega
            · intro j hj pc' hpc'
              by_cases hji : j = i
              · subst hji
                rw [List.getElem?_set_self hplt] at hpc'
                cases hpc'
                trivial
              · rw [List.getElem?_set_ne (fun hh => hji hh.symm)] at hpc'
                exact inv.tinv j hj pc' hpc'
            · intro r hr; rw [hres] at hr; cases hr
      | inCheap =>
        have hres : s.result = none :=
          result_none_of_active uid envs cache0 s inv i .inCheap hp
            (by intro hh; cases hh)
        cases hf : e.cheap.find? (fun u => u.id == uid) with
        | some u =>
          rw [rStep_cheap_found uid envs s i e u he hp hf]
          refine rInv_found uid envs cache0 s i .inCheap u inv hilt hp rfl hres
            ?_ _
          unfold probeAnswer
          rw [hienv, hf]
          rfl
        | none =>
          cases hsig : s.signal with
          | true =>
            rw [rStep_cheap_miss_signal uid envs s i e he hp hf hsig]
            exact rInv_release uid envs cache0 s i .inCheap inv hilt hp rfl hres
              (Or.inl hsig)
          | false =>
            cases hm : e.members with
            | nil =>
              rw [rStep_cheap_miss_empty uid envs s i e he hp hf hsig hm]
              refine rInv_release uid envs cache0 s i .inCheap inv hilt hp rfl
                hres (Or.inr ?_)
              unfold probeAnswer
              rw [hienv, hf, hm]
              rfl
            | cons v vs =>
              rw [rStep_cheap_miss_scan uid envs s i e v vs he hp hf hsig hm]
              refine ⟨by simp [inv.len], ?_, inv.sig, inv.found_src, ?_,
                fun _ => inv.resv hres, ?_⟩
              · have hcs := countP_set holdsSlot s.pcs i (PPC.inScan 0) hplt
                rw [hpget] at hcs
                simp [holdsSlot] at hcs
                have hsb := inv.semBal
                unfold rHolding at hsb
                show s.sem + (s.pcs.set i (PPC.inScan 0)).countP holdsSlot
                  = PARALLEL_LIMIT
                omega
              · intro j hj pc' hpc'
                by_cases hji : j = i
                · subst hji
                  rw [List.getElem?_set_self hplt] at hpc'
                  cases hpc'
                  refine ⟨by rw [hienv]; exact hf, ?_, ?_⟩
                  · rw [hienv, hm]; simp
                  · intro j hj u hu
                    exact absurd hj (Nat.not_lt_zero j)
                · rw [List.getElem?_set_ne (fun hh => hji hh.symm)] at hpc'
                  exact inv.tinv j hj pc' hpc'
              · intro r hr; rw [hres] at hr; cases hr
      | inScan k =>
        have hres : s.result = none :=
          result_none_of_active uid envs cache0 s inv i (.inScan k) hp
            (by intro hh; cases hh)
        have htk := inv.tinv i hilt (.inScan k) hp
        rw [hienv] at htk
        obtain ⟨htc, htl, htb⟩ := htk
        cases hk : e.members[k]? with
        | none =>
          exfalso
          rw [List.getElem?_eq_getElem htl] at hk
          cases hk
        | some u =>
          cases hu : u.id == uid with
          | true =>
            rw [rStep_scan_found uid envs s i k e u he hp hk hu]
            refine rInv_found uid envs cache0 s i (.inScan k) u inv hilt hp rfl
              hres ?_ _
            unfold probeAnswer
            rw [hienv, htc]
            show e.members.find? (fun u => u.id == uid) = some u
            exact find?_eq_some_of_first _ e.members k u hk hu htb
          | false =>
            by_cases hlt2 : k + 1 < e.members.length
            · rw [rStep_scan_next uid envs s i k e u he hp hk hu hlt2]
              refine ⟨by simp [inv.len], ?_, inv.sig, inv.found_src, ?_,
                fun _ => inv.resv hres, ?_⟩
              · have hcs := countP_set holdsSlot s.pcs i (PPC.inScan (k + 1)) hplt
                rw [hpget] at hcs
                simp [holdsSlot] at hcs
                have hsb := inv.semBal
                unfold rHolding at hsb
                show s.sem + (s.pcs.set i (PPC.inScan (k + 1))).countP holdsSlot
                  = PARALLEL_LIMIT
                omega
              · intro j hj pc' hpc'
                by_cases hji : j = i
                · subst hji
                  rw [List.getElem?_set_self hplt] at hpc'
                  cases hpc'
                  refine ⟨by rw [hienv]; exact htc, by rw [hienv]; exact hlt2, ?_⟩
                  rw [hienv]
                  intro j hj u' hu'
                  by_cases hjk : j < k
                  · exact htb j hjk u' hu'
                  · have hjeq : j = k := by omega
                    subst hjeq
                    rw [hk] at hu'
                    injection hu' with hh
                    rw [← hh]
                    exact hu
                · rw [List.getElem?_set_ne (fun hh => hji hh.symm)] at hpc'
                  exact inv.tinv j hj pc' hpc'
              · intro r hr; rw [hres] at hr; cases hr
            · rw [rStep_scan_end uid envs s i k e u he hp hk hu hlt2]
              refine rInv_release uid envs cache0 s i (.inScan k) inv hilt hp rfl
                hres (Or.inr ?_)
              unfold probeAnswer
              rw [hienv, htc]
              show Option.orElse none (fun _ => e.members.find? fun u => u.id == uid)
                = none
              have hnone : e.members.find? (fun u => u.id == uid) = none := by
                apply find?_eq_none_of_all
                intro j v hv
                by_cases hjk : j < k
                · exact htb j hjk v hv
                · by_cases hjeq : j = k
                  · subst hjeq
                    rw [hk] at hv
                    injection hv with hh
                    rw [← hh]
                    exact hu
                  · have hge : e.members.length ≤ j := by omega
                    rw [List.getElem?_eq_none hge] at hv
                    cases hv
              show e.members.find? (fun u => u.id == uid) = none
              exact hnone
      | finished =>
        rw [rStep_finished uid envs s i e he hp]
        exact inv

theorem rInv_main_step (uid : Int) (envs : List ProbeEnv)
    (cache0 : List (Int × Ident)) (s : RState)
    (inv : RInv uid envs cache0 s) :
    RInv uid envs cache0 (resolver_main_step uid s) := by
  cases hres : s.result with
  | some r =>
    rw [rMain_halted uid s (by rw [hres]; rfl)]
    exact inv
  | none =>
    cases hc : (s.signal || s.pcs.all (· == PPC.finished)) with
    | false => rw [rMain_wait uid s hres hc]; exact inv
    | true =>
      rw [rMain_fire uid s hres hc]
      refine ⟨by simp [inv.len], ?_, inv.sig, inv.found_src, ?_, ?_, ?_⟩
      · show PARALLEL_LIMIT
            + (s.pcs.map fun _ => PPC.finished).countP holdsSlot
          = PARALLEL_LIMIT
        have hz : (s.pcs.map fun _ => PPC.finished).countP holdsSlot = 0 := by
          rw [List.countP_eq_zero]
          intro a ha
          obtain ⟨b, _, hb⟩ := List.mem_map.1 ha
          rw [← hb]
          simp [holdsSlot]
        omega
      · intro j hj pc' hpc'
        have hj2 : j < s.pcs.length := by rw [inv.len]; exact hj
        rw [List.getElem?_map, List.getElem?_eq_getElem hj2] at hpc'
        simp at hpc'
        subst hpc'
        cases hsig2 : s.signal with
        | true => exact Or.inl rfl
        | false =>
          have hall : s.pcs.all (· == PPC.finished) = true := by
            rw [hsig2] at hc
            simpa using hc
          have hfin : s.pcs[j] = PPC.finished := by
            have := List.all_eq_true.1 hall (s.pcs[j]) (s.pcs.getElem_mem hj2)
            simpa using this
          have htj := inv.tinv j hj (s.pcs[j]) (List.getElem?_eq_getElem hj2)
          rw [hfin] at htj
          rcases htj with h1 | h2
          · rw [hsig2] at h1; cases h1
          · exact Or.inr h2
      · intro hh; cases hh
      · intro r hr
        injection hr with hr1
        refine ⟨hr1.symm, ?_, ?_⟩
        · intro pc' hpc'
          obtain ⟨b, _, hb⟩ := List.mem_map.1 hpc'
          exact hb.symm
        · show (match s.found with
                | some u => (uid, u) :: s.cache
                | none => s.cache)
            = (match s.found with
               | some u => (uid, u) :: cache0
               | none => cache0)
          rw [inv.resv hres]

theorem rInv_step (uid : Int) (envs : List ProbeEnv)
    (cache0 : List (Int × Ident)) (s : RState) (c : Option Nat)
    (inv : RInv uid envs cache0 s) :
    RInv uid envs cache0 (resolver_step uid envs s c) := by
  cases c with
  | some i => exact rInv_probe_step uid envs cache0 s i inv
  | none => exact rInv_main_step uid envs cache0 s inv

theorem rInv_run (uid : Int) (envs : List ProbeEnv)
    (cache0 : List (Int × Ident)) (sch : RSched) (s : RState)
    (inv : RInv uid envs cache0 s) :
    RInv uid envs cache0 (resolver_run_from uid envs s sch) := by
  induction sch generalizing s with
  | nil => exact inv
  | cons c sch ih => exact ih _ (rInv_step uid envs cache0 s c inv)

theorem rInit_inv (uid : Int) (envs : List ProbeEnv)
    (cache0 : List (Int × Ident)) :
    RInv uid envs cache0 (rInit envs cache0) := by
  refine ⟨by simp [rInit], ?_, rfl, ?_, ?_, fun _ => rfl, ?_⟩
  · show PARALLEL_LIMIT + (envs.map fun _ => PPC.waiting).countP holdsSlot
      = PARALLEL_LIMIT
    have hz : (envs.map fun _ => PPC.waiting).countP holdsSlot = 0 := by
      rw [List.countP_eq_zero]
      intro a ha
      obtain ⟨b, _, hb⟩ := List.mem_map.1 ha
      rw [← hb]
      simp [holdsSlot]
    omega
  · intro u hu; cases hu
  · intro j hj pc' hpc'
    show TaskInv uid envs[j] false pc'
    have hmap : (envs.map fun _ => PPC.waiting)[j]? = some PPC.waiting := by
      rw [List.getElem?_map, List.getElem?_eq_getElem hj]
      rfl
    have hpc2 : (envs.map fun _ => PPC.waiting)[j]? = some pc' := hpc'
    rw [hmap] at hpc2
    cases hpc2
    trivial
  · intro r hr; cases hr

theorem probeAnswer_id (uid : Int) (e : ProbeEnv) (u : Ident)
    (h : probeAnswer uid e = some u) : u.id = uid := by
  unfold probeAnswer at h
  cases hc : e.cheap.find? (fun u => u.id == uid) with
  | some v =>
    rw [hc] at h
    have hvu : v = u := by simpa [Option.orElse] using h
    have hv := List.find?_some hc
    rw [hvu] at hv
    exact eq_of_beq hv
  | none =>
    rw [hc] at h
    have h2 : e.members.find? (fun u => u.id == uid) = some u := by
      simpa [Option.orElse] using h
    have hpu := List.find?_some h2
    exact eq_of_beq hpu

/-- C1 (amended): on a fresh entity-cache hit the resolver returns the cached
identity with no probe and no remote call; otherwise, along every schedule,
at most `PARALLEL_LIMIT = 8` probes hold a semaphore slot; when exactly one
scope contains the target id, every completed run returns that scope's
identity — whichever probe finishes first — and writes it into the entity
cache keyed by the target id; and `None` is returned only when no scope's
probe could find the target.  (Cancellation after the match is only
best-effort — see the counterexample for a post-match remote call.) -/
theorem resolver_race_spec (uid : Int) (envs : List ProbeEnv)
    (cache0 : List (Int × Ident)) (sch : RSched) :
    (∀ u, lookupEnt cache0 uid = some u →
       (resolver_run uid envs cache0 sch).result = some (some u)
       ∧ (resolver_run uid envs cache0 sch).trace = []
       ∧ (resolver_run uid envs cache0 sch).cache = cache0)
  ∧ rHolding (resolver_run uid envs cache0 sch) ≤ PARALLEL_LIMIT
  ∧ (lookupEnt cache0 uid = none →
     ∀ i, ∀ hi : i < envs.length, ∀ u0, probeAnswer uid envs[i] = some u0 →
     (∀ j, ∀ _hj : j < envs.length, j ≠ i → probeAnswer uid envs[j] = none) →
     ∀ r, (resolver_run uid envs cache0 sch).result = some r →
       r = some u0 ∧ u0.id = uid
       ∧ (resolver_run uid envs cache0 sch).cache = (uid, u0) :: cache0)
  ∧ ((resolver_run uid envs cache0 sch).result = some none →
     ∀ e ∈ envs, probeAnswer uid e = none) := by
  refine ⟨?_, ?_, ?_, ?_⟩
  · intro u hu
    unfold resolver_run
    rw [hu]
    exact ⟨rfl, rfl, rfl⟩
  · unfold resolver_run
    cases hu : lookupEnt cache0 uid with
    | some u =>
      show ({ rInit envs cache0 with result := some (some u) } : RState).pcs.countP
          holdsSlot ≤ PARALLEL_LIMIT
      have hz : (envs.map fun _ => PPC.waiting).countP holdsSlot = 0 := by
        rw [List.countP_eq_zero]
        intro a ha
        obtain ⟨b, _, hb⟩ := List.mem_map.1 ha
        rw [← hb]
        simp [holdsSlot]
      show (envs.map fun _ => PPC.waiting).countP holdsSlot ≤ PARALLEL_LIMIT
      omega
    | none =>
      have hinv := rInv_run uid envs cache0 sch _ (rInit_inv uid envs cache0)
      have hsb := hinv.semBal
      show rHolding (resolver_run_from uid envs (rInit envs cache0) sch)
        ≤ PARALLEL_LIMIT
      omega
  · intro hmiss i hi u0 hans huniq r hr
    unfold resolver_run at hr ⊢
    rw [hmiss] at hr ⊢
    have hinv := rInv_run uid envs cache0 sch _ (rInit_inv uid envs cache0)
    obtain ⟨hrfound, hallfin, hcache⟩ := hinv.halt r hr
    have hfound : (resolver_run_from uid envs (rInit envs cache0) sch).found
        = some u0 := by
      cases hfd : (resolver_run_from uid envs (rInit envs cache0) sch).found with
      | none =>
        exfalso
        have hsigf := hinv.sig
        rw [hfd] at hsigf
        have hj2 : i < (resolver_run_from uid envs (rInit envs cache0) sch).pcs.length := by
          rw [hinv.len]; exact hi
        have hpci := List.getElem?_eq_getElem hj2
        have hfin := hallfin _
          ((resolver_run_from uid envs (rInit envs cache0) sch).pcs.getElem_mem hj2)
        have hti := hinv.tinv i hi _ hpci
        rw [hfin] at hti
        rcases hti with h1 | h2
        · rw [hsigf] at h1; cases h1
        · rw [h2] at hans; cases hans
      | some u' =>
        obtain ⟨e, hmem, hansE⟩ := hinv.found_src u' hfd
        obtain ⟨j, hjlt, hje⟩ := List.mem_iff_getElem.1 hmem
        rw [← hje] at hansE
        by_cases hji : j = i
        · subst hji
          rw [hans] at hansE
          injection hansE with hh
          rw [hh]
        · rw [huniq j hjlt hji] at hansE
          cases hansE
    refine ⟨by rw [hrfound, hfound], probeAnswer_id uid envs[i] u0 hans, ?_⟩
    rw [hcache, hfound]
  · intro hr e hmem
    unfold resolver_run at hr
    cases hu : lookupEnt cache0 uid with
    | some u =>
      rw [hu] at hr
      injection hr with h1
      exact Option.noConfusion h1
    | none =>
      rw [hu] at hr
      have hinv := rInv_run uid envs cache0 sch _ (rInit_inv uid envs cache0)
      obtain ⟨hrfound, hallfin, _⟩ := hinv.halt none hr
      obtain ⟨j, hjlt, hje⟩ := List.mem_iff_getElem.1 hmem
      have hj2 : j < (resolver_run_from uid envs (rInit envs cache0) sch).pcs.length := by
        rw [hinv.len]; exact hjlt
      have hpci := List.getElem?_eq_getElem hj2
      have hfin := hallfin _
        ((resolver_run_from uid envs (rInit envs cache0) sch).pcs.getElem_mem hj2)
      have hti := hinv.tinv j hjlt _ hpci
      rw [hfin] at hti
      rcases hti with h1 | h2
      · have hsigf := hinv.sig
        rw [← hrfound] at hsigf
        rw [hsigf] at h1
        cases h1
      · rw [← hje]
        exact h2

/-- C1 (counterexample to the claim as stated): a concrete run in which scope
0's probe matches (signal set), and scope 1's probe — already inside the
member scan, whose loop body never checks the completion signal, and not yet
cancelled by the 0.05-second polling waiter — issues a further remote call
after the match; so "no further remote calls occur for that target id after
the match" fails on the code, even though the run still returns the right
identity. -/
theorem resolver_calls_after_match :
    callAfterMatch (resolver_run 5 c1CounterEnvs [] c1CounterSched).trace = true
  ∧ (resolver_run 5 c1CounterEnvs [] c1CounterSched).result = some (some ⟨5⟩)
  ∧ probeAnswer 5 ⟨[⟨5⟩], []⟩ = some ⟨5⟩
  ∧ probeAnswer 5 ⟨[], [⟨1⟩, ⟨2⟩, ⟨3⟩]⟩ = none :=
  ⟨rfl, rfl, rfl, rfl⟩

/-- Witness for C1: two scopes, only scope 0 contains id 5; a completed run
returns scope 0's identity and caches it under key 5. -/
theorem resolver_race_spec_witness :
    (some (Ident.mk 5) : Option Ident) = some ⟨5⟩ ∧ (Ident.mk 5).id = 5
  ∧ (resolver_run 5 c1WitnessEnvs [] [some 0, some 0, none]).cache
      = (5, Ident.mk 5) :: [] :=
  (resolver_race_spec 5 c1WitnessEnvs [] [some 0, some 0, none]).2.2.1 rfl
    0 (by decide) ⟨5⟩ rfl
    (by
      intro j hj hne
      match j, hj with
      | 0, _ => exact absurd rfl hne
      | 1, _ => rfl
      | j + 2, hj => exact absurd hj (by simp [c1WitnessEnvs] at hj ⊢))
    (some ⟨5⟩) rfl

/-- C10: the racing resolver writes the entity cache only when a probe found
an identity — while still running, and whenever it returns `None` (no match
in any scope, or all probes errored out / found nothing), the entity cache is
exactly what it was before the call. -/
theorem resolver_cache_untouched (uid : Int) (envs : List ProbeEnv)
    (cache0 : List (Int × Ident)) (sch : RSched) :
    ((resolver_run uid envs cache0 sch).result = none →
       (resolver_run uid envs cache0 sch).cache = cache0)
  ∧ ((resolver_run uid envs cache0 sch).result = some none →
       (resolver_run uid envs cache0 sch).cache = cache0) := by
  unfold resolver_run
  cases hu : lookupEnt cache0 uid with
  | some u => exact ⟨fun _ => rfl, fun _ => rfl⟩
  | none =>
    have hinv := rInv_run uid envs cache0 sch _ (rInit_inv uid envs cache0)
    constructor
    · intro hr
      exact hinv.resv hr
    · intro hr
      have hcc := (hinv.halt none hr).2.2
      have hf := (hinv.halt none hr).1
      rw [← hf] at hcc
      simpa using hcc

/-- Witness for C10: a run whose single scope does not contain the target
completes with `None` and leaves the (empty) entity cache empty. -/
theorem resolver_cache_untouched_witness :
    (resolver_run 5 c10Envs [] [some 0, some 0, some 0, none]).cache = [] :=
  (resolver_cache_untouched 5 c10Envs [] [some 0, some 0, some 0, none]).2 rfl

end AdvancedBan
